import Mathlib

/-!
# Verification of the TVT compute-offload path-optimization engine

Shallow embedding of the FeiLiu52/TVT-code repository: the delay model
(`d_uv`), the CPEG three-layer expansion (`CPEG.expand_network`), the CNE
per-compute-node replica expansion (`CNE.expand_network`), and the greedy
strategies CCN (`find_closest_compute_node`) and MPCN
(`find_max_capacity_compute_node`).

Modelling conventions:
* Python node-name strings are Lean `String`s; `f"{node}_2"` is `node ++ "_2"`
  and `v.split('_')[0]` is the prefix of `v` before its first underscore.
* Python floats are `ℚ`; `float('inf')` is `none : Option ℚ` (`oadd`, `omin`,
  `ole` give `Option ℚ` the arithmetic and order of `[0, ∞]`).
* `networkx` shortest-path queries (`nx.shortest_path`, `nx.dijkstra_path`)
  are external library calls; they are modelled by a Jacobi-style
  Bellman-Ford (`pbf`) that stores, for every target, a minimum-cost walk of
  at most `rounds` edges, updating only on strict improvement (a fixed,
  deterministic tie-break, cf. the library's unspecified one).  On the
  non-negative weights the repository uses this computes the Dijkstra
  distance.
* Exceptions escaping to the caller (`KeyError`, `ValueError` from `max()`
  of an empty sequence, `networkx.NetworkXNoPath`) are `Except PyErr`.
-/

set_option maxRecDepth 16000

namespace TVT

/-- Errors that the Python scripts can raise to their caller. -/
inductive PyErr where
  | keyError
  | valueError
  | noPath
deriving DecidableEq, Repr

instance {ε α : Type} [DecidableEq ε] [DecidableEq α] : DecidableEq (Except ε α) :=
  fun x y =>
    match x, y with
    | .ok a, .ok b =>
      if h : a = b then isTrue (by rw [h]) else
        isFalse (fun hh => h (by injection hh))
    | .error a, .error b =>
      if h : a = b then isTrue (by rw [h]) else
        isFalse (fun hh => h (by injection hh))
    | .ok _, .error _ => isFalse (fun hh => Except.noConfusion hh)
    | .error _, .ok _ => isFalse (fun hh => Except.noConfusion hh)

/-- Attributes attached to every original edge; the YAML loaders always
populate all five fields. -/
structure EdgeAttrs where
  bandwidth : ℚ
  propagation_delay : ℚ
  processing_delay : ℚ
  queuing_delay : ℚ
  jitter : ℚ
deriving DecidableEq, Repr

instance : Inhabited EdgeAttrs := ⟨⟨1, 0, 0, 0, 0⟩⟩

/-- Data attached to an expanded-graph edge: the original attribute
dictionary, a `{'capacity': c}` dictionary, or a bare number (the literal `0`
put on CL-DCL and aggregation edges).  The first two are Python `dict`s, the
last is not. -/
inductive Payload where
  | attrs (a : EdgeAttrs)
  | capdict (c : ℚ)
  | num (q : ℚ)
deriving DecidableEq, Repr

/-- `edge_data.get('bandwidth', 1)` on a dict payload. -/
def Payload.bwD : Payload → ℚ
  | .attrs a => a.bandwidth
  | _ => 1

/-- The four `edge_data.get(..., 0)` non-transmission terms summed. -/
def Payload.ntD : Payload → ℚ
  | .attrs a => a.propagation_delay + a.processing_delay + a.queuing_delay + a.jitter
  | _ => 0

/-- Python `s.split('_')[0]`: the characters before the first underscore
(the whole string when there is none). -/
def firstSeg (s : String) : String := String.mk (s.data.takeWhile (fun c => c ≠ '_'))

/-- Association-list lookup, first match wins (the capacity dictionaries are
built by `zip` over distinct compute nodes, so there are no duplicate keys). -/
def alookup (k : String) : List (String × ℚ) → Option ℚ
  | [] => none
  | p :: r => if p.1 = k then some p.2 else alookup k r

/-- Original directed edge: `(source, destination, attribute dict)`. -/
abbrev OEdge := String × String × EdgeAttrs

/-- Expanded-graph edge: `(u, v, payload, layer tag)`. -/
abbrev EEdge := String × String × Payload × String

/-- Weighted edge after the per-layer weight function has been applied. -/
abbrev WEdge := String × String × ℚ

/-! ## Arithmetic and order on `Option ℚ` as `[0, ∞]` (`none` = `float('inf')`) -/

/-- `x + w` with `∞ + w = ∞`. -/
def oadd : Option ℚ → ℚ → Option ℚ
  | none, _ => none
  | some a, w => some (a + w)

/-- Minimum, keeping the left value on ties (strict-improvement update). -/
def omin : Option ℚ → Option ℚ → Option ℚ
  | none, b => b
  | some a, none => some a
  | some a, some b => if b < a then some b else some a

/-- `x ≤ y` in `[0, ∞]`. -/
def ole : Option ℚ → Option ℚ → Prop
  | _, none => True
  | none, some _ => False
  | some a, some b => a ≤ b

instance : ∀ x y : Option ℚ, Decidable (ole x y) := fun x y => by
  unfold ole; cases x <;> cases y <;> infer_instance

/-! ## Shortest-path search (model of the networkx calls)

`relax d E v` is the distance of `v` after one simultaneous relaxation of all
listed edges starting from distance map `d`; `bf` iterates it.  `prelax`/`pbf`
is the same computation also storing a witnessing walk. -/

/-- One Jacobi relaxation pass, distances only. -/
def relax (d : String → Option ℚ) : List WEdge → String → Option ℚ
  | [], v => d v
  | e :: E, v =>
    if e.2.1 = v then omin (relax d E v) (oadd (d e.1) e.2.2) else relax d E v

/-- Initial distance map of a single-source search. -/
def bfInit (src : String) : String → Option ℚ := fun v => if v = src then some 0 else none

/-- Bellman-Ford distances after `k` Jacobi rounds. -/
def bf (E : List WEdge) (src : String) : Nat → String → Option ℚ
  | 0 => bfInit src
  | k + 1 => fun v => relax (bf E src k) E v

/-- Keep the stored entry unless the candidate is strictly cheaper. -/
def pupd (cur : Option (ℚ × List String)) (cand : ℚ × List String) : Option (ℚ × List String) :=
  match cur with
  | none => some cand
  | some (c, p) => if cand.1 < c then some cand else some (c, p)

/-- One Jacobi relaxation pass, storing (cost, walk) entries. -/
def prelax (d : String → Option (ℚ × List String)) :
    List WEdge → String → Option (ℚ × List String)
  | [], v => d v
  | e :: E, v =>
    if e.2.1 = v then
      match d e.1 with
      | none => prelax d E v
      | some (c, p) => pupd (prelax d E v) (c + e.2.2, p ++ [v])
    else prelax d E v

/-- Path-storing Bellman-Ford after `k` Jacobi rounds. -/
def pbf (E : List WEdge) (src : String) : Nat → String → Option (ℚ × List String)
  | 0 => fun v => if v = src then some (0, [src]) else none
  | k + 1 => fun v => prelax (pbf E src k) E v

/-- Model of a networkx single-source shortest-path query: `rounds` is the
node count of the graph under search.  Returns `(cost, path)` or `none` when
the library would raise `NetworkXNoPath`. -/
def shortest_path (E : List WEdge) (rounds : Nat) (src dst : String) :
    Option (ℚ × List String) :=
  pbf E src rounds dst

/-- The weight the built `DiGraph` holds for the pair `(u, v)` (first listed
occurrence; the graphs built by the scripts have no duplicate pairs). -/
def wOf (E : List WEdge) (u v : String) : Option ℚ :=
  (E.find? (fun e => decide (e.1 = u) && decide (e.2.1 = v))).map (fun e => e.2.2)

/-- `sum(G[p[i]][p[i+1]]['weight'] ...)` along a node path. -/
def pathWeight (E : List WEdge) : List String → Option ℚ
  | u :: v :: r =>
    match wOf E u v, pathWeight E (v :: r) with
    | some w, some s => some (w + s)
    | _, _ => none
  | _ => some 0

/-- Sum of `f` over the attribute dicts along consecutive pairs of a path,
`G[u][v]` looked up in the original edge list. -/
def sumBy (edges : List OEdge) (f : EdgeAttrs → ℚ) : List String → ℚ
  | u :: v :: r =>
    f (((edges.find? (fun e => decide (e.1 = u) && decide (e.2.1 = v))).map
        (fun e => e.2.2)).getD default) + sumBy edges f (v :: r)
  | _ => 0

/-! ## Delay model (`d_uv` from the CPEG driver in `CNE.py` / `LP_in_CPEG.py`) -/

/-- The per-layer weight function of the CPEG expanded graph.  Non-dict
payloads yield 0; unknown layer tags yield 0; the `UCL-CL` branch re-derives
the compute node's name by splitting at `'_'` and silently defaults a missing
capacity to 1. -/
def d_uv (flow_size gamma omega : ℚ) (compute_capacities : List (String × ℚ))
    (u v layer : String) (edge_data : Payload) : ℚ :=
  match edge_data with
  | .num _ => 0
  | p =>
    if layer = "C-UCL" then
      flow_size / p.bwD + p.ntD
    else if layer = "C-DCL" then
      gamma * flow_size / p.bwD + p.ntD
    else if layer = "UCL-CL" then
      omega * flow_size / ((alookup (firstSeg v) compute_capacities).getD 1)
    else if layer = "CL-DCL" then 0
    else 0

/-- §4.1 `forward` link delay, stated as the spec writes it. -/
def forwardDelay (flow_size : ℚ) (a : EdgeAttrs) : ℚ :=
  a.propagation_delay + a.processing_delay + a.queuing_delay + a.jitter +
    flow_size / a.bandwidth

/-- §4.1 `return` link delay, stated as the spec writes it. -/
def returnDelay (gamma flow_size : ℚ) (a : EdgeAttrs) : ℚ :=
  a.propagation_delay + a.processing_delay + a.queuing_delay + a.jitter +
    gamma * flow_size / a.bandwidth

/-! ## CPEG three-layer expansion (`CPEG.py`) -/

namespace CPEG

/-- `CPEG.expand_network`: the three-layer expansion.  `compute_capacities[node]`
is a raising dict access, hence the `Except`. -/
def expand_network (original_nodes : List String) (original_edges : List OEdge)
    (compute_nodes : List String) (compute_capacities : List (String × ℚ))
    (Source_node Dest_node : String) :
    Except PyErr (List String × List EEdge) := do
  let V_C_UCL := original_nodes
  let V_C_CL := compute_nodes.map (fun node => node ++ "_2")
  let V_C_DCL := (original_nodes.filter (fun node => node ≠ Source_node)).map
    (fun node => node ++ "_3")
  let ucl : List EEdge := (original_edges.filter (fun e => e.2.1 ≠ Dest_node)).map
    (fun e => (e.1, e.2.1, Payload.attrs e.2.2, "C-UCL"))
  let uclcl ← compute_nodes.mapM (fun node =>
    match alookup node compute_capacities with
    | some c => Except.ok ((node, node ++ "_2", Payload.capdict c, "UCL-CL") : EEdge)
    | none => Except.error PyErr.keyError)
  let cldcl : List EEdge := compute_nodes.map
    (fun node => (node ++ "_2", node ++ "_3", Payload.num 0, "CL-DCL"))
  let dcl : List EEdge :=
    (original_edges.filter (fun e => e.1 ≠ Source_node && e.2.1 ≠ Source_node)).map
      (fun e => (e.1 ++ "_3", e.2.1 ++ "_3", Payload.attrs e.2.2, "C-DCL"))
  return (V_C_UCL ++ V_C_CL ++ V_C_DCL, ucl ++ uclcl ++ cldcl ++ dcl)

end CPEG

/-- Apply `d_uv` to every expanded edge (the driver's `G.add_edge(u, v,
weight=d_uv(u, v, layer, edge_data))` loop). -/
def weightedOf (flow_size gamma omega : ℚ) (compute_capacities : List (String × ℚ))
    (E : List EEdge) : List WEdge :=
  E.map (fun e => (e.1, e.2.1, d_uv flow_size gamma omega compute_capacities
    e.1 e.2.1 e.2.2.2 e.2.2.1))

/-- The CPEG driver script (second half of `CNE.py`): expand, weight with
`d_uv`, run Dijkstra from the source to the destination's DCL copy, and report
the path and its recomputed weight sum.  An unreachable destination raises
`NetworkXNoPath`, which the script does not catch. -/
def cpeg_run (nodes : List String) (edges : List OEdge) (compute_nodes : List String)
    (compute_capacities : List (String × ℚ)) (source_node destination_node : String)
    (flow_size gamma omega : ℚ) : Except PyErr (Option ℚ × List String) := do
  let (V, E) ← CPEG.expand_network nodes edges compute_nodes compute_capacities
    source_node destination_node
  let W := weightedOf flow_size gamma omega compute_capacities E
  let dest_node_dcl := destination_node ++ "_3"
  match shortest_path W V.length source_node dest_node_dcl with
  | none => Except.error PyErr.noPath
  | some (_, p) => return (pathWeight W p, p)

/-! ## CNE replica expansion (`CNE.py`, first half) -/

namespace CNE

/-- `CNE.expand_network`: one full replica of the graph per compute node plus
a super-destination. -/
def expand_network (original_nodes : List String) (original_edges : List OEdge)
    (compute_nodes : List String) (compute_capacities : List (String × ℚ))
    (Source_node Dest_node : String) :
    Except PyErr (List String × List EEdge × String) := do
  let num_copies := compute_nodes.length
  let copyNodes := (List.range num_copies).flatMap (fun i =>
    (original_nodes.filter (fun node => node ≠ Source_node)).map
      (fun node => node ++ "_" ++ toString (i + 1)))
  let orig : List EEdge := original_edges.map
    (fun e => (e.1, e.2.1, Payload.attrs e.2.2, "original"))
  let copied : List EEdge := (List.range num_copies).flatMap (fun i =>
    (original_edges.filter (fun e => e.1 ≠ Source_node && e.2.1 ≠ Source_node)).map
      (fun e => (e.1 ++ "_" ++ toString (i + 1), e.2.1 ++ "_" ++ toString (i + 1),
        Payload.attrs e.2.2, "copied")))
  let computeE ← compute_nodes.enum.mapM (fun ic =>
    match alookup ic.2 compute_capacities with
    | some c => Except.ok ((ic.2, ic.2 ++ "_" ++ toString (ic.1 + 1),
        Payload.capdict c, "compute") : EEdge)
    | none => Except.error PyErr.keyError)
  let super_dest := Dest_node ++ "_Super_Dest"
  let aggregate : List EEdge := (List.range num_copies).map (fun i =>
    (Dest_node ++ "_" ++ toString (i + 1), super_dest, Payload.num 0, "aggregate"))
  return (original_nodes ++ copyNodes ++ [super_dest],
    orig ++ copied ++ computeE ++ aggregate, super_dest)

end CNE

/-- Modelled from the spec: the CNE driver script (`CNE_algorithm.py`, invoked
by the compare harnesses) is not among the repository sources; §4.5 specifies
a search functionally equivalent to CPEG's (per-layer delay weights, search
`source → super-destination`, same non-negativity and failure semantics).
The weight of each replica-expansion layer tag: `original` edges carry the
§4.1 forward delay, `copied` edges the §4.1 return delay, `compute` edges the
compute delay `omega * flowSize / capacity`, `aggregate` edges zero. -/
def cne_weight (flow_size gamma omega : ℚ) (e : EEdge) : ℚ :=
  if e.2.2.2 = "original" then
    match e.2.2.1 with
    | .attrs a => forwardDelay flow_size a
    | _ => 0
  else if e.2.2.2 = "copied" then
    match e.2.2.1 with
    | .attrs a => returnDelay gamma flow_size a
    | _ => 0
  else if e.2.2.2 = "compute" then
    match e.2.2.1 with
    | .capdict c => omega * flow_size / c
    | _ => 0
  else 0

/-- Collapse consecutive duplicate nodes (after stripping layer suffixes a
compute node appears twice in a row). -/
def collapseDup : List String → List String
  | [] => []
  | [x] => [x]
  | x :: y :: r => if x = y then collapseDup (y :: r) else x :: collapseDup (y :: r)

/-- Apply the spec-modelled per-layer weight to every CNE expanded edge. -/
def weightedOfCNE (flow_size gamma omega : ℚ) (E : List EEdge) : List WEdge :=
  E.map (fun e => (e.1, e.2.1, cne_weight flow_size gamma omega e))

/-- Modelled from the spec: the missing CNE driver.  Expand (§4.5), weight
every edge by `cne_weight`, search `source → super-destination`; no path (or
zero compute nodes) yields `(none, +∞, [])`; otherwise report the compute
node revealed by the path, the path's total weight, and the path unexpanded
to original-node identifiers (§8). -/
def cne_run (nodes : List String) (edges : List OEdge) (compute_nodes : List String)
    (compute_capacities : List (String × ℚ)) (source_node destination_node : String)
    (flow_size gamma omega : ℚ) :
    Except PyErr (Option String × Option ℚ × List String) := do
  let (V, E, super_dest) ← CNE.expand_network nodes edges compute_nodes
    compute_capacities source_node destination_node
  let W := weightedOfCNE flow_size gamma omega E
  match shortest_path W V.length source_node super_dest with
  | none => return (none, none, [])
  | some (c, p) =>
    let node := (p.find? (fun x => decide ('_' ∈ x.data))).map firstSeg
    return (node, some c, collapseDup ((p.filter (fun x => x ≠ super_dest)).map firstSeg))

/-! ## CCN greedy strategy (`CCN.py`) -/

/-- Weighted edge list for `nx.shortest_path(..., weight='propagation_delay')`. -/
def propEdges (edges : List OEdge) : List WEdge :=
  edges.map (fun e => (e.1, e.2.1, e.2.2.propagation_delay))

/-- The candidate filter and selection of CCN: for every compute node try the
two propagation-weighted queries; keep `(node, Σ propagation along forward
path, forward path, return path)`; pick the first entry with minimal key
(Python's stable sort + `[0]`). -/
def ccn_select (nodes : List String) (edges : List OEdge) (compute_nodes : List String)
    (source_node destination_node : String) :
    Option (String × ℚ × List String × List String) :=
  let G := propEdges edges
  let rounds := nodes.length
  let valid := compute_nodes.filterMap (fun compute_node =>
    match shortest_path G rounds source_node compute_node,
      shortest_path G rounds compute_node destination_node with
    | some (_, path_to_compute), some (_, path_to_dest) =>
      some (compute_node, sumBy edges (fun a => a.propagation_delay) path_to_compute,
        path_to_compute, path_to_dest)
    | _, _ => none)
  match valid with
  | [] => none
  | x :: xs => some (xs.foldl (fun b y => if y.2.1 < b.2.1 then y else b) x)

/-- `find_closest_compute_node` from `CCN.py`: select by cheapest
propagation-only forward path, then recompute the full five-term forward
delay along that same path, the full return delay along the
propagation-chosen return path, add the compute delay (a raising dict
access), and glue the two paths. -/
def find_closest_compute_node (nodes : List String) (edges : List OEdge)
    (compute_nodes : List String) (compute_capacities : List (String × ℚ))
    (source_node destination_node : String) (flow_size omega gamma : ℚ) :
    Except PyErr (Option String × Option ℚ × List String) :=
  match ccn_select nodes edges compute_nodes source_node destination_node with
  | none => Except.ok (none, none, [])
  | some (closest_node, _, shortest_path, path_compute_to_destination) =>
    match alookup closest_node compute_capacities with
    | none => Except.error PyErr.keyError
    | some cap =>
      let transmission_delay := sumBy edges (fun a => flow_size / a.bandwidth) shortest_path
      let processing_delay := sumBy edges (fun a => a.processing_delay) shortest_path
      let queuing_delay := sumBy edges (fun a => a.queuing_delay) shortest_path
      let jitter := sumBy edges (fun a => a.jitter) shortest_path
      let propagation_delay := sumBy edges (fun a => a.propagation_delay) shortest_path
      let delay_to_compute_node := propagation_delay + transmission_delay +
        processing_delay + queuing_delay + jitter
      let delay_compute_to_destination := sumBy edges
        (fun a => a.propagation_delay + a.processing_delay + a.queuing_delay +
          gamma * flow_size / a.bandwidth + a.jitter) path_compute_to_destination
      let compute_delay := omega * flow_size / cap
      Except.ok (some closest_node,
        some (delay_to_compute_node + delay_compute_to_destination + compute_delay),
        shortest_path.dropLast ++ path_compute_to_destination)

/-! ## MPCN greedy strategy (`MPCN.py`) -/

/-- `max(compute_capacities.items(), key=lambda x: x[1])`: first maximal
entry, `ValueError` on an empty dict. -/
def maxCapEntry : List (String × ℚ) → Option (String × ℚ)
  | [] => none
  | x :: xs => some (xs.foldl (fun b y => if y.2 > b.2 then y else b) x)

/-- The full-forward-delay weight lambda of MPCN's first query. -/
def mpcnFwdW (flow_size : ℚ) (a : EdgeAttrs) : ℚ :=
  a.propagation_delay + a.processing_delay + a.queuing_delay +
    flow_size / a.bandwidth + a.jitter

/-- The full-return-delay weight lambda of MPCN's second query. -/
def mpcnRetW (gamma flow_size : ℚ) (a : EdgeAttrs) : ℚ :=
  a.propagation_delay + a.processing_delay + a.queuing_delay +
    gamma * flow_size / a.bandwidth + a.jitter

/-- The paths MPCN computes for the fixed max-capacity node. -/
def mpcn_select (nodes : List String) (edges : List OEdge)
    (compute_capacities : List (String × ℚ)) (source_node destination_node : String)
    (flow_size gamma : ℚ) :
    Option ((String × ℚ) × Option (List String × List String)) :=
  match maxCapEntry compute_capacities with
  | none => none
  | some m =>
    let rounds := nodes.length
    let fwd := edges.map (fun e => (e.1, e.2.1, mpcnFwdW flow_size e.2.2))
    let ret := edges.map (fun e => (e.1, e.2.1, mpcnRetW gamma flow_size e.2.2))
    match shortest_path fwd rounds source_node m.1,
      shortest_path ret rounds m.1 destination_node with
    | some (_, path_to_compute), some (_, path_to_dest) =>
      some (m, some (path_to_compute, path_to_dest))
    | _, _ => some (m, none)

/-- `find_max_capacity_compute_node` from `MPCN.py`: fix the max-capacity
node, search both segments with full-delay weights, recompute the delays along
the returned paths, add the compute delay; `NetworkXNoPath` is caught and
becomes the no-path result, but `max()` on an empty capacity dict raises. -/
def find_max_capacity_compute_node (nodes : List String) (edges : List OEdge)
    (compute_capacities : List (String × ℚ)) (source_node destination_node : String)
    (flow_size omega gamma : ℚ) :
    Except PyErr (Option String × Option ℚ × List String) :=
  match mpcn_select nodes edges compute_capacities source_node destination_node
    flow_size gamma with
  | none => Except.error PyErr.valueError
  | some (_, none) => Except.ok (none, none, [])
  | some (m, some (path_to_compute, path_to_dest)) =>
    let delay_to_compute := sumBy edges (mpcnFwdW flow_size) path_to_compute
    let delay_to_dest := sumBy edges (mpcnRetW gamma flow_size) path_to_dest
    let compute_delay := omega * flow_size / m.2
    Except.ok (some m.1, some (delay_to_compute + delay_to_dest + compute_delay),
      path_to_compute.dropLast ++ path_to_dest)

/-! ## Validity predicates (§1/§3 invariants of valid inputs) -/

/-- The node name contains no underscore.  The expansion layers are told apart
purely by `_`-suffixes (`f"{node}_2"`, `v.split('_')[0]`), so underscore-free
original identifiers are what makes the naming scheme injective. -/
def NoUS (s : String) : Prop := '_' ∉ s.data

instance (s : String) : Decidable (NoUS s) := by unfold NoUS; infer_instance

/-- §3 valid `Network` together with a source/destination pair: positive
bandwidths, non-negative delay terms, positive capacities for every compute
node, unique underscore-free identifiers, no multi-edges, endpoints and
compute nodes drawn from the node set, source and destination distinct
non-compute nodes. -/
def ValidNet (nodes : List String) (edges : List OEdge) (compute_nodes : List String)
    (compute_capacities : List (String × ℚ)) (source_node destination_node : String) :
    Prop :=
  nodes.Nodup ∧ compute_nodes.Nodup ∧
  (∀ e ∈ edges, e.1 ∈ nodes ∧ e.2.1 ∈ nodes) ∧
  (edges.map (fun e => (e.1, e.2.1))).Nodup ∧
  (∀ c ∈ compute_nodes, c ∈ nodes) ∧
  (∀ c ∈ compute_nodes, 0 < (alookup c compute_capacities).getD 0) ∧
  (∀ e ∈ edges, 0 < e.2.2.bandwidth ∧ 0 ≤ e.2.2.propagation_delay ∧
    0 ≤ e.2.2.processing_delay ∧ 0 ≤ e.2.2.queuing_delay ∧ 0 ≤ e.2.2.jitter) ∧
  source_node ∈ nodes ∧ destination_node ∈ nodes ∧ source_node ≠ destination_node ∧
  source_node ∉ compute_nodes ∧ destination_node ∉ compute_nodes ∧
  (∀ n ∈ nodes, NoUS n)

instance (nodes : List String) (edges : List OEdge) (compute_nodes : List String)
    (compute_capacities : List (String × ℚ)) (s d : String) :
    Decidable (ValidNet nodes edges compute_nodes compute_capacities s d) := by
  unfold ValidNet; infer_instance

/-- §3 valid `FlowRequest` parameters. -/
def ValidFlow (flow_size gamma omega : ℚ) : Prop :=
  0 < flow_size ∧ 1 ≤ gamma ∧ 0 ≤ omega

instance (flow_size gamma omega : ℚ) : Decidable (ValidFlow flow_size gamma omega) := by
  unfold ValidFlow; infer_instance

/-! ## Claim-side CCN (the behaviour claim C4 attributes to `CCN.py`):
identical to the source except that the return path is chosen shortest by the
full return-delay weighting rather than by propagation delay alone. -/

/-- The CCN algorithm as claim C4 describes it: forward path and selection by
propagation delay, but the `node → destination` path chosen shortest by the
full five-term return-delay weighting. -/
def ccn_claim (nodes : List String) (edges : List OEdge) (compute_nodes : List String)
    (compute_capacities : List (String × ℚ)) (source_node destination_node : String)
    (flow_size omega gamma : ℚ) :
    Except PyErr (Option String × Option ℚ × List String) :=
  let G := propEdges edges
  let retG := edges.map (fun e => (e.1, e.2.1, mpcnRetW gamma flow_size e.2.2))
  let rounds := nodes.length
  let valid := compute_nodes.filterMap (fun compute_node =>
    match shortest_path G rounds source_node compute_node,
      shortest_path retG rounds compute_node destination_node with
    | some (_, path_to_compute), some (_, path_to_dest) =>
      some (compute_node, sumBy edges (fun a => a.propagation_delay) path_to_compute,
        path_to_compute, path_to_dest)
    | _, _ => none)
  match valid with
  | [] => Except.ok (none, none, [])
  | x :: xs =>
    match xs.foldl (fun b y => if y.2.1 < b.2.1 then y else b) x with
    | (closest_node, _, path_to_compute, path_to_dest) =>
      match alookup closest_node compute_capacities with
      | none => Except.error PyErr.keyError
      | some cap =>
        let fwd := sumBy edges (mpcnFwdW flow_size) path_to_compute
        let ret := sumBy edges (mpcnRetW gamma flow_size) path_to_dest
        Except.ok (some closest_node, some (fwd + ret + omega * flow_size / cap),
          path_to_compute.dropLast ++ path_to_dest)

/-! ## Concrete networks used by counterexamples and witnesses -/

/-- Three nodes `s, d, c`; the only cheap route towards the compute node `c`
passes through the destination `d`. -/
def n1nodes : List String := ["s", "d", "c"]

/-- Edges of the first concrete network: unit bandwidths, propagation 1
except the expensive direct `s → c` link. -/
def n1edges : List OEdge :=
  [("s", "d", ⟨1, 1, 0, 0, 0⟩), ("d", "c", ⟨1, 1, 0, 0, 0⟩),
   ("c", "d", ⟨1, 1, 0, 0, 0⟩), ("s", "c", ⟨1, 100, 0, 0, 0⟩)]

/-- Capacity map of the first concrete network. -/
def n1caps : List (String × ℚ) := [("c", 1)]

/-- Network for the C4 counterexample: the propagation-cheapest return route
`c → a → d` has tiny bandwidth, the full-return-cheapest route `c → b → d`
has large bandwidth. -/
def n4nodes : List String := ["s", "c", "a", "b", "d"]

/-- Edges of the C4 network. -/
def n4edges : List OEdge :=
  [("s", "c", ⟨1, 1, 0, 0, 0⟩),
   ("c", "a", ⟨1/100, 1, 0, 0, 0⟩), ("a", "d", ⟨1/100, 1, 0, 0, 0⟩),
   ("c", "b", ⟨100, 5, 0, 0, 0⟩), ("b", "d", ⟨100, 5, 0, 0, 0⟩)]

/-- Capacity map of the C4 network. -/
def n4caps : List (String × ℚ) := [("c", 1)]

/-- Two-node network with no compute nodes (for C6). -/
def n2nodes : List String := ["s", "d"]

/-- Single edge of the compute-free network. -/
def n2edges : List OEdge := [("s", "d", ⟨1, 1, 0, 0, 0⟩)]

/-- Simple chain `s → c → d` on which every strategy's segments avoid the
destination/source; used by witnesses. -/
def nWnodes : List String := ["s", "c", "d"]

/-- Edges of the witness chain network. -/
def nWedges : List OEdge :=
  [("s", "c", ⟨1, 1, 0, 0, 0⟩), ("c", "d", ⟨1, 1, 0, 0, 0⟩)]

/-- Capacity map of the witness chain network. -/
def nWcaps : List (String × ℚ) := [("c", 1)]

/-! ## Walk predicates over weighted edge lists -/

/-- `SWalk E p c`: `p` is a nonempty walk along edges of `E` of total weight
`c` (built back-to-front, matching how `pbf` extends stored paths). -/
inductive SWalk (E : List WEdge) : List String → ℚ → Prop
  | single (v : String) : SWalk E [v] 0
  | snoc {p : List String} {c : ℚ} {u v w : _} :
      SWalk E p c → p.getLast? = some u → (u, v, w) ∈ E → SWalk E (p ++ [v]) (c + w)

/-- `ChainFrom E u q c`: starting at `u`, the nodes of `q` can be visited in
order along edges of `E` of total weight `c`. -/
inductive ChainFrom (E : List WEdge) : String → List String → ℚ → Prop
  | nil (u : String) : ChainFrom E u [] 0
  | cons {u v : String} {w : ℚ} {q : List String} {c : ℚ} :
      (u, v, w) ∈ E → ChainFrom E v q c → ChainFrom E u (v :: q) (w + c)

/-- `NChain edges u q`: adjacency-only chain over the original edge list. -/
inductive NChain (edges : List OEdge) : String → List String → Prop
  | nil (u : String) : NChain edges u []
  | cons {u v : String} {q : List String} (a : EdgeAttrs) :
      (u, v, a) ∈ edges → NChain edges v q → NChain edges u (v :: q)

/-- No two listed edges share the same (source, target) pair. -/
def nodupPairs (E : List WEdge) : Prop := (E.map (fun e => (e.1, e.2.1))).Nodup

/-- No two original edges share the same (source, target) pair. -/
def nodupPairsO (edges : List OEdge) : Prop :=
  (edges.map (fun e => (e.1, e.2.1))).Nodup

/-- The expanded node list CPEG's `expand_network` returns (pure form). -/
def cpegNodes (original_nodes compute_nodes : List String) (Source_node : String) :
    List String :=
  original_nodes ++ compute_nodes.map (fun node => node ++ "_2") ++
    (original_nodes.filter (fun node => node ≠ Source_node)).map (fun node => node ++ "_3")

/-- The expanded edge list CPEG's `expand_network` returns when every compute
node has a listed capacity (pure form; the capacity payload value is the
lookup result). -/
def cpegEdges (original_edges : List OEdge) (compute_nodes : List String)
    (compute_capacities : List (String × ℚ)) (Source_node Dest_node : String) :
    List EEdge :=
  (original_edges.filter (fun e => e.2.1 ≠ Dest_node)).map
      (fun e => (e.1, e.2.1, Payload.attrs e.2.2, "C-UCL")) ++
    compute_nodes.map (fun node =>
      (node, node ++ "_2", Payload.capdict ((alookup node compute_capacities).getD 0),
        "UCL-CL")) ++
    compute_nodes.map (fun node => (node ++ "_2", node ++ "_3", Payload.num 0, "CL-DCL")) ++
    (original_edges.filter (fun e => e.1 ≠ Source_node && e.2.1 ≠ Source_node)).map
      (fun e => (e.1 ++ "_3", e.2.1 ++ "_3", Payload.attrs e.2.2, "C-DCL"))

/-- The expanded node list CNE's `expand_network` returns (pure form). -/
def cneNodes (original_nodes compute_nodes : List String)
    (Source_node Dest_node : String) : List String :=
  original_nodes ++
    (List.range compute_nodes.length).flatMap (fun i =>
      (original_nodes.filter (fun node => node ≠ Source_node)).map
        (fun node => node ++ "_" ++ toString (i + 1))) ++
    [Dest_node ++ "_Super_Dest"]

/-- The expanded edge list CNE's `expand_network` returns when every compute
node has a listed capacity (pure form). -/
def cneEdges (original_edges : List OEdge) (compute_nodes : List String)
    (compute_capacities : List (String × ℚ)) (Source_node Dest_node : String) :
    List EEdge :=
  original_edges.map (fun e => (e.1, e.2.1, Payload.attrs e.2.2, "original")) ++
    (List.range compute_nodes.length).flatMap (fun i =>
      (original_edges.filter (fun e => e.1 ≠ Source_node && e.2.1 ≠ Source_node)).map
        (fun e => (e.1 ++ "_" ++ toString (i + 1), e.2.1 ++ "_" ++ toString (i + 1),
          Payload.attrs e.2.2, "copied"))) ++
    compute_nodes.enum.map (fun ic =>
      (ic.2, ic.2 ++ "_" ++ toString (ic.1 + 1),
        Payload.capdict ((alookup ic.2 compute_capacities).getD 0), "compute")) ++
    (List.range compute_nodes.length).map (fun i =>
      (Dest_node ++ "_" ++ toString (i + 1), Dest_node ++ "_Super_Dest",
        Payload.num 0, "aggregate"))

/-! ## Order algebra on `Option ℚ` -/

lemma ole_refl (x : Option ℚ) : ole x x := by
  cases x <;> simp [ole]

lemma ole_none (x : Option ℚ) : ole x none := by
  cases x <;> simp [ole]

lemma ole_trans {x y z : Option ℚ} (h1 : ole x y) (h2 : ole y z) : ole x z := by
  cases x <;> cases y <;> cases z <;> simp_all [ole]
  linarith

lemma oadd_mono {x y : Option ℚ} (w : ℚ) (h : ole x y) : ole (oadd x w) (oadd y w) := by
  cases x <;> cases y <;> simp_all [ole, oadd]

lemma omin_le_left (x y : Option ℚ) : ole (omin x y) x := by
  cases x with
  | none => cases y <;> simp [omin, ole, ole_none]
  | some a =>
    cases y with
    | none => simp [omin, ole]
    | some b =>
      by_cases h : b < a <;> simp [omin, ole, h]
      linarith

lemma omin_le_right (x y : Option ℚ) : ole (omin x y) y := by
  cases x with
  | none => cases y <;> simp [omin, ole_refl]
  | some a =>
    cases y with
    | none => simp [omin, ole]
    | some b =>
      by_cases h : b < a <;> simp [omin, ole, h]
      linarith

lemma ole_omin {b x y : Option ℚ} (h1 : ole b x) (h2 : ole b y) : ole b (omin x y) := by
  cases x with
  | none => simpa [omin] using h2
  | some a =>
    cases y with
    | none => simpa [omin] using h1
    | some c =>
      simp only [omin]
      split
      · exact h2
      · exact h1

lemma omin_none_right (x : Option ℚ) : omin x none = x := by
  cases x <;> simp [omin]

/-! ## Relaxation and Bellman-Ford lemmas -/

lemma relax_le_self (d : String → Option ℚ) (E : List WEdge) (v : String) :
    ole (relax d E v) (d v) := by
  induction E with
  | nil => exact ole_refl _
  | cons e E ih =>
    by_cases h : e.2.1 = v
    · simpa [relax, h] using ole_trans (omin_le_left _ _) ih
    · simpa [relax, h] using ih

lemma relax_le_edge (d : String → Option ℚ) {E : List WEdge} {u v : String} {w : ℚ}
    (hmem : (u, v, w) ∈ E) : ole (relax d E v) (oadd (d u) w) := by
  induction E with
  | nil => cases hmem
  | cons e E ih =>
    rcases List.mem_cons.mp hmem with h | h
    · subst h
      simp only [relax, if_pos rfl]
      exact omin_le_right _ _
    · by_cases hv : e.2.1 = v
      · simp only [relax, if_pos hv]
        exact ole_trans (omin_le_left _ _) (ih h)
      · simpa [relax, hv] using ih h

lemma ole_relax {B : Option ℚ} (d : String → Option ℚ) (E : List WEdge) (v : String)
    (hs : ole B (d v)) (he : ∀ u w, (u, v, w) ∈ E → ole B (oadd (d u) w)) :
    ole B (relax d E v) := by
  induction E with
  | nil => exact hs
  | cons e E ih =>
    have ih' := ih (fun u w h => he u w (List.mem_cons_of_mem _ h))
    by_cases hv : e.2.1 = v
    · simp only [relax, if_pos hv]
      refine ole_omin ih' ?_
      have : (e.1, v, e.2.2) ∈ e :: E := by
        rcases e with ⟨a, b, c⟩; simp_all
      exact he _ _ this
    · simpa [relax, hv] using ih'

lemma bf_succ_le (E : List WEdge) (src : String) (k : Nat) (v : String) :
    ole (bf E src (k + 1) v) (bf E src k v) :=
  relax_le_self _ _ _

lemma bf_anti (E : List WEdge) (src : String) {k j : Nat} (h : k ≤ j) (v : String) :
    ole (bf E src j v) (bf E src k v) := by
  induction j with
  | zero => cases Nat.le_zero.mp h; exact ole_refl _
  | succ j ih =>
    rcases Nat.lt_or_ge k (j + 1) with hlt | hge
    · exact ole_trans (bf_succ_le E src j v) (ih (Nat.lt_succ_iff.mp hlt))
    · have : k = j + 1 := Nat.le_antisymm h hge
      subst this; exact ole_refl _

lemma bf_self_le_zero (E : List WEdge) (src : String) (k : Nat) :
    ole (bf E src k src) (some 0) := by
  induction k with
  | zero => simp [bf, bfInit, ole_refl]
  | succ k ih => exact ole_trans (relax_le_self _ _ _) ih

/-- Lower-bound lemma: after `k` rounds the Bellman-Ford distance is below
the cost of every walk from the source that uses at most `k` edges. -/
lemma bf_le_swalk {E : List WEdge} {src : String} {p : List String} {c : ℚ}
    (hw : SWalk E p c) :
    ∀ {k : Nat} {v : String}, p.head? = some src → p.getLast? = some v →
      p.length ≤ k + 1 → ole (bf E src k v) (some c) := by
  induction hw with
  | single x =>
    intro k v hh hl _
    simp only [List.head?_cons, Option.some_inj] at hh
    simp only [List.getLast?_singleton, Option.some_inj] at hl
    rw [← hh, ← hl]
    exact bf_self_le_zero E x k
  | @snoc p c u v w hw hlast hmem ih =>
    intro k v' hh hl hlen
    have hpne : p ≠ [] := by
      cases hw <;> simp_all
    have hv' : v' = v := by
      rw [List.getLast?_concat] at hl
      exact (Option.some_inj.mp hl).symm
    rw [hv']
    have hh' : p.head? = some src := by
      cases p with
      | nil => exact absurd rfl hpne
      | cons a t => simpa using hh
    have hlen' : p.length + 1 ≤ k + 1 := by simpa using hlen
    have hk : 1 ≤ k := by
      have : 1 ≤ p.length := by
        cases p with
        | nil => exact absurd rfl hpne
        | cons a t => simp
      omega
    obtain ⟨k', rfl⟩ : ∃ k', k = k' + 1 := ⟨k - 1, by omega⟩
    have ihk : ole (bf E src k' u) (some c) := ih hh' hlast (by omega)
    have h1 : ole (bf E src (k' + 1) v) (oadd (bf E src k' u) w) :=
      relax_le_edge _ hmem
    exact ole_trans h1 (by
      have := oadd_mono w ihk
      simpa [oadd] using this)

/-! ## Bridge between path-storing and distance-only Bellman-Ford -/

lemma pupd_fst (cur : Option (ℚ × List String)) (cand : ℚ × List String) :
    (pupd cur cand).map Prod.fst = omin (cur.map Prod.fst) (some cand.1) := by
  cases cur with
  | none => simp [pupd, omin]
  | some x =>
    rcases x with ⟨c, p⟩
    by_cases h : cand.1 < c <;> simp [pupd, omin, h]

lemma prelax_fst {d' : String → Option (ℚ × List String)} {d : String → Option ℚ}
    (hd : ∀ x, (d' x).map Prod.fst = d x) (E : List WEdge) (v : String) :
    (prelax d' E v).map Prod.fst = relax d E v := by
  induction E with
  | nil => simpa [prelax, relax] using hd v
  | cons e E ih =>
    by_cases hv : e.2.1 = v
    · simp only [prelax, relax, if_pos hv]
      cases hde : d' e.1 with
      | none =>
        have : d e.1 = none := by rw [← hd e.1, hde]; rfl
        rw [this]
        simp [oadd, omin_none_right, ih]
      | some x =>
        rcases x with ⟨c, p⟩
        have : d e.1 = some c := by rw [← hd e.1, hde]; rfl
        rw [this, pupd_fst, ih]
        simp [oadd]
    · simpa [prelax, relax, hv] using ih

lemma pbf_fst (E : List WEdge) (src : String) (k : Nat) (v : String) :
    (pbf E src k v).map Prod.fst = bf E src k v := by
  induction k generalizing v with
  | zero =>
    simp only [pbf, bf, bfInit]
    split <;> simp
  | succ k ih => exact prelax_fst (fun x => ih x) E v

/-! ## Invariants of the stored walks -/

lemma SWalk.ne_nil {E : List WEdge} {p : List String} {c : ℚ} (h : SWalk E p c) :
    p ≠ [] := by
  cases h <;> simp

/-- What `pbf` stores is a walk from the source to the queried node whose
length is bounded by the round count. -/
lemma pbf_inv {E : List WEdge} {src : String} :
    ∀ {k : Nat} {v : String} {c : ℚ} {p : List String},
      pbf E src k v = some (c, p) →
      SWalk E p c ∧ p.head? = some src ∧ p.getLast? = some v ∧ p.length ≤ k + 1 := by
  intro k
  induction k with
  | zero =>
    intro v c p h
    simp only [pbf] at h
    split at h
    · rename_i hv
      obtain ⟨rfl, rfl⟩ : 0 = c ∧ [src] = p := by
        constructor <;> (injection h with h'; cases h'; rfl)
      subst hv
      exact ⟨SWalk.single v, by simp, by simp, by simp⟩
    · cases h
  | succ k ih =>
    intro v c p h
    simp only [pbf] at h
    -- induct over the edge list inside `prelax`, tracking membership
    suffices H : ∀ (E' : List WEdge), (∀ e ∈ E', e ∈ E) →
        ∀ {v c p}, prelax (pbf E src k) E' v = some (c, p) →
        SWalk E p c ∧ p.head? = some src ∧ p.getLast? = some v ∧ p.length ≤ k + 2 by
      exact H E (fun _ he => he) h
    intro E' hsub
    induction E' with
    | nil =>
      intro v c p h'
      simp only [prelax] at h'
      obtain ⟨hw, hh, hl, hlen⟩ := ih h'
      exact ⟨hw, hh, hl, by omega⟩
    | cons e E' ihE =>
      intro v c p h'
      have hsub' : ∀ x ∈ E', x ∈ E := fun x hx => hsub x (List.mem_cons_of_mem _ hx)
      by_cases hv : e.2.1 = v
      · simp only [prelax, if_pos hv] at h'
        cases hde : pbf E src k e.1 with
        | none =>
          rw [hde] at h'
          exact ihE hsub' h'
        | some x =>
          rcases x with ⟨c0, p0⟩
          rw [hde] at h'
          obtain ⟨hw0, hh0, hl0, hlen0⟩ := ih hde
          have hcand : SWalk E (p0 ++ [v]) (c0 + e.2.2) ∧
              (p0 ++ [v]).head? = some src ∧ (p0 ++ [v]).getLast? = some v ∧
              (p0 ++ [v]).length ≤ k + 2 := by
            have hmemE : (e.1, v, e.2.2) ∈ E := by
              have : e ∈ E := hsub e (List.mem_cons_self e E')
              rcases e with ⟨a, b, wq⟩
              simp only at hv
              subst hv
              exact this
            refine ⟨SWalk.snoc hw0 hl0 hmemE, ?_, List.getLast?_concat _, ?_⟩
            · cases p0 with
              | nil => exact absurd rfl hw0.ne_nil
              | cons a t => simpa using hh0
            · simp only [List.length_append, List.length_cons, List.length_nil]
              omega
          unfold pupd at h'
          cases hacc : prelax (pbf E src k) E' v with
          | none =>
            rw [hacc] at h'
            obtain ⟨rfl, rfl⟩ : c0 + e.2.2 = c ∧ p0 ++ [v] = p := by
              constructor <;> (injection h' with h''; cases h''; rfl)
            exact hcand
          | some y =>
            rcases y with ⟨ca, pa⟩
            rw [hacc] at h'
            simp only at h'
            split at h'
            · obtain ⟨rfl, rfl⟩ : c0 + e.2.2 = c ∧ p0 ++ [v] = p := by
                constructor <;> (injection h' with h''; cases h''; rfl)
              exact hcand
            · obtain ⟨rfl, rfl⟩ : ca = c ∧ pa = p := by
                constructor <;> (injection h' with h''; cases h''; rfl)
              exact ihE hsub' hacc
      · simp only [prelax, if_neg hv] at h'
        exact ihE hsub' h'

/-! ## Edge lookup and path-weight lemmas -/

lemma str_ext {a b : String} (h : a.data = b.data) : a = b := by
  cases a; cases b; simp only at h; rw [h]

lemma find_eq_of_mem_nodup {E : List WEdge} {u v : String} {w : ℚ}
    (hmem : (u, v, w) ∈ E) (hnd : nodupPairs E) :
    E.find? (fun e => decide (e.1 = u) && decide (e.2.1 = v)) = some (u, v, w) := by
  induction E with
  | nil => cases hmem
  | cons e E ih =>
    have hnd' : nodupPairs E := by
      simpa [nodupPairs] using (List.nodup_cons.mp hnd).2
    rcases List.mem_cons.mp hmem with h | h
    · rw [← h]
      apply List.find?_cons_of_pos
      simp [← h]
    · by_cases hp : e.1 = u ∧ e.2.1 = v
      · exfalso
        have hhd : (e.1, e.2.1) ∉ E.map (fun x => (x.1, x.2.1)) :=
          (List.nodup_cons.mp (by simpa [nodupPairs] using hnd)).1
        apply hhd
        rw [hp.1, hp.2]
        exact List.mem_map.mpr ⟨(u, v, w), h, rfl⟩
      · rw [List.find?_cons_of_neg, ih h hnd']
        simp only [Bool.and_eq_true, decide_eq_true_eq]
        exact hp

lemma wOf_eq_of_mem {E : List WEdge} {u v : String} {w : ℚ}
    (hmem : (u, v, w) ∈ E) (hnd : nodupPairs E) : wOf E u v = some w := by
  rw [wOf, find_eq_of_mem_nodup hmem hnd]
  rfl

lemma pathWeight_concat {E : List WEdge} {p : List String} {u v : String} {a w : ℚ}
    (hl : p.getLast? = some u) (hp : pathWeight E p = some a) (hw : wOf E u v = some w) :
    pathWeight E (p ++ [v]) = some (a + w) := by
  induction p generalizing a with
  | nil => cases hl
  | cons x t ih =>
    cases t with
    | nil =>
      simp only [List.getLast?_singleton, Option.some_inj] at hl
      simp only [pathWeight, Option.some_inj] at hp
      rw [← hl] at hw
      simp only [List.cons_append, List.nil_append, pathWeight, hw]
      rw [← hp]
      norm_num
    | cons y r =>
      have hl' : (y :: r).getLast? = some u := by
        rw [List.getLast?_cons_cons] at hl
        exact hl
      simp only [pathWeight] at hp
      cases hxy : wOf E x y with
      | none => rw [hxy] at hp; cases hp
      | some w1 =>
        rw [hxy] at hp
        cases hyr : pathWeight E (y :: r) with
        | none => rw [hyr] at hp; cases hp
        | some s =>
          rw [hyr] at hp
          simp only [Option.some_inj] at hp
          have ihr := ih hl' hyr
          simp only [List.cons_append, pathWeight, hxy]
          rw [List.cons_append] at ihr
          simp only [List.append_eq]
          rw [ihr]
          show some (w1 + (s + w)) = some (a + w)
          rw [← hp]
          congr 1
          ring

lemma swalk_pathWeight {E : List WEdge} {p : List String} {c : ℚ}
    (hw : SWalk E p c) (hnd : nodupPairs E) : pathWeight E p = some c := by
  induction hw with
  | single v => rfl
  | snoc hw0 hlast hmem ih =>
    exact pathWeight_concat hlast ih (wOf_eq_of_mem hmem hnd)

lemma findO_eq_of_mem {edges : List OEdge} {u v : String} {a : EdgeAttrs}
    (hmem : (u, v, a) ∈ edges) (hnd : nodupPairsO edges) :
    edges.find? (fun e => decide (e.1 = u) && decide (e.2.1 = v)) = some (u, v, a) := by
  induction edges with
  | nil => cases hmem
  | cons e E ih =>
    have hnd' : nodupPairsO E := by
      simpa [nodupPairsO] using (List.nodup_cons.mp hnd).2
    rcases List.mem_cons.mp hmem with h | h
    · rw [← h]
      apply List.find?_cons_of_pos
      simp [← h]
    · by_cases hp : e.1 = u ∧ e.2.1 = v
      · exfalso
        have hhd : (e.1, e.2.1) ∉ E.map (fun x => (x.1, x.2.1)) :=
          (List.nodup_cons.mp (by simpa [nodupPairsO] using hnd)).1
        apply hhd
        rw [hp.1, hp.2]
        exact List.mem_map.mpr ⟨(u, v, a), h, rfl⟩
      · rw [List.find?_cons_of_neg, ih h hnd']
        simp only [Bool.and_eq_true, decide_eq_true_eq]
        exact hp

lemma sumBy_cons_of_mem {edges : List OEdge} {u v : String} {a : EdgeAttrs}
    (f : EdgeAttrs → ℚ) (r : List String) (hmem : (u, v, a) ∈ edges)
    (hnd : nodupPairsO edges) :
    sumBy edges f (u :: v :: r) = f a + sumBy edges f (v :: r) := by
  simp [sumBy, findO_eq_of_mem hmem hnd]

lemma sumBy_add (edges : List OEdge) (f g : EdgeAttrs → ℚ) (p : List String) :
    sumBy edges (fun a => f a + g a) p = sumBy edges f p + sumBy edges g p := by
  induction p with
  | nil => simp [sumBy]
  | cons x t ih =>
    cases t with
    | nil => simp [sumBy]
    | cons y r =>
      simp only [sumBy] at ih ⊢
      rw [ih]
      ring

/-! ## Chain conversions and extensions -/

lemma swalk_extend {E : List WEdge} {p : List String} {c : ℚ} {u : String}
    {q : List String} {w : ℚ} (hw : SWalk E p c) (hl : p.getLast? = some u)
    (hc : ChainFrom E u q w) : SWalk E (p ++ q) (c + w) := by
  induction hc generalizing p c with
  | nil x =>
    simpa using hw
  | @cons x v w0 q0 c0 hmem hch ih =>
    have h1 : SWalk E (p ++ [v]) (c + w0) := SWalk.snoc hw hl hmem
    have h2 := ih h1 (List.getLast?_concat _)
    rw [List.append_assoc] at h2
    simpa [add_assoc] using h2

lemma nchain_snoc {edges : List OEdge} {x : String} {t : List String} {u v : String}
    {a : EdgeAttrs} (hch : NChain edges x t) (hl : (x :: t).getLast? = some u)
    (hmem : (u, v, a) ∈ edges) : NChain edges x (t ++ [v]) := by
  induction hch with
  | nil y =>
    simp only [List.getLast?_singleton, Option.some_inj] at hl
    rw [← hl] at hmem
    simpa using NChain.cons a hmem (NChain.nil v)
  | @cons y v0 q a0 hm hch0 ih =>
    have hl' : (v0 :: q).getLast? = some u := by
      rw [List.getLast?_cons_cons] at hl
      exact hl
    exact NChain.cons a0 hm (ih hl')

lemma mem_mapW {edges : List OEdge} {M : EdgeAttrs → ℚ} {u v : String} {w : ℚ} :
    (u, v, w) ∈ edges.map (fun e => (e.1, e.2.1, M e.2.2)) ↔
      ∃ a, (u, v, a) ∈ edges ∧ w = M a := by
  constructor
  · intro h
    rcases List.mem_map.mp h with ⟨e, he, heq⟩
    rcases e with ⟨e1, e2, e3⟩
    simp only [Prod.mk.injEq] at heq
    exact ⟨e3, by rw [heq.1, heq.2.1] at he; exact he, heq.2.2.symm⟩
  · rintro ⟨a, ha, rfl⟩
    exact List.mem_map.mpr ⟨(u, v, a), ha, rfl⟩

lemma swalk_to_nchain {edges : List OEdge} {M : EdgeAttrs → ℚ} {p : List String} {c : ℚ}
    (hw : SWalk (edges.map (fun e => (e.1, e.2.1, M e.2.2))) p c) :
    ∀ x t, p = x :: t → NChain edges x t := by
  induction hw with
  | single y =>
    intro x t h
    injection h with h1 h2
    subst h2
    exact NChain.nil x
  | @snoc p0 c0 u v w hw0 hlast hmem ih =>
    intro x t h
    cases p0 with
    | nil => exact absurd rfl hw0.ne_nil
    | cons a t0 =>
      simp only [List.cons_append] at h
      injection h with h1 h2
      rcases mem_mapW.mp hmem with ⟨attr, hattr, _⟩
      have hres := nchain_snoc (ih a t0 rfl) hlast hattr
      rw [← h1, ← h2]
      exact hres

/-! ## Name hygiene: underscore-suffix disambiguation -/

lemma takeWhile_append_all {p : Char → Bool} {l l2 : List Char}
    (h : ∀ x ∈ l, p x = true) : (l ++ l2).takeWhile p = l ++ l2.takeWhile p := by
  induction l with
  | nil => simp
  | cons a t ih =>
    have ha : p a = true := h a (List.mem_cons_self a t)
    simp only [List.cons_append, List.takeWhile_cons, ha, if_true]
    rw [ih (fun x hx => h x (List.mem_cons_of_mem a hx))]

lemma firstSeg_append {c t : String} (hc : NoUS c) (ht : t.data.head? = some '_') :
    firstSeg (c ++ t) = c := by
  apply str_ext
  show ((c ++ t).data.takeWhile (fun ch => ch ≠ '_')) = c.data
  rw [String.data_append]
  rw [takeWhile_append_all (fun x hx => by
    simp only [ne_eq, decide_eq_true_eq]
    intro heq
    exact hc (heq ▸ hx))]
  cases hd : t.data with
  | nil => rw [hd] at ht; cases ht
  | cons ch r =>
    rw [hd] at ht
    simp only [List.head?_cons, Option.some_inj] at ht
    rw [ht]
    simp

lemma noUS_ne_append {x y t : String} (hx : NoUS x) (ht : '_' ∈ t.data) : x ≠ y ++ t := by
  intro h
  apply hx
  rw [h, String.data_append]
  exact List.mem_append.mpr (Or.inr ht)

lemma str_append_cancel {x y t : String} (h : x ++ t = y ++ t) : x = y := by
  apply str_ext
  have hd : x.data ++ t.data = y.data ++ t.data := by
    rw [← String.data_append, ← String.data_append, h]
  exact (List.append_inj' hd rfl).1

lemma append_last_char {x t : String} {c : Char} (h : t.data.getLast? = some c) :
    (x ++ t).data.getLast? = some c := by
  rw [String.data_append, List.getLast?_append, h]
  rfl

lemma suffix_ne_of_last {t1 t2 : String} {c1 c2 : Char}
    (h1 : t1.data.getLast? = some c1) (h2 : t2.data.getLast? = some c2) (hne : c1 ≠ c2) :
    ∀ x y : String, x ++ t1 ≠ y ++ t2 := by
  intro x y h
  apply hne
  have := append_last_char (x := x) h1
  rw [h, append_last_char (x := y) h2] at this
  exact (Option.some_inj.mp this).symm

/-! ## Fold-min utilities (for the replica-layer simulation) -/

lemma foldr_omin_le_mem (f : Nat → Option ℚ) {l : List Nat} {i : Nat} (h : i ∈ l) :
    ole (l.foldr (fun j acc => omin (f j) acc) none) (f i) := by
  induction l with
  | nil => cases h
  | cons a t ih =>
    rcases List.mem_cons.mp h with rfl | h'
    · exact omin_le_left _ _
    · exact ole_trans (omin_le_right _ _) (ih h')

lemma foldr_omin_cases (f : Nat → Option ℚ) (l : List Nat) :
    l.foldr (fun j acc => omin (f j) acc) none = none ∨
      ∃ i ∈ l, l.foldr (fun j acc => omin (f j) acc) none = f i := by
  induction l with
  | nil => exact Or.inl rfl
  | cons a t ih =>
    simp only [List.foldr_cons]
    cases hfa : f a with
    | none =>
      rcases ih with h | ⟨i, hi, h⟩
      · rw [h]; left; simp [omin]
      · rw [h]
        cases hfi : f i with
        | none => left; simp [omin]
        | some q => right; exact ⟨i, List.mem_cons_of_mem a hi, by simp [omin, hfi]⟩
    | some qa =>
      rcases ih with h | ⟨i, hi, h⟩
      · rw [h]; right
        exact ⟨a, List.mem_cons_self a t, by simp [omin_none_right, hfa]⟩
      · rw [h]
        cases hfi : f i with
        | none =>
          right
          exact ⟨a, List.mem_cons_self a t, by simp [omin_none_right, hfa, hfi]⟩
        | some qi =>
          by_cases hlt : qi < qa
          · right
            refine ⟨i, List.mem_cons_of_mem a hi, ?_⟩
            simp [omin, hfa, hfi, hlt]
          · right
            refine ⟨a, List.mem_cons_self a t, ?_⟩
            simp [omin, hfa, hfi, hlt]

lemma foldr_omin_mono {f g : Nat → Option ℚ} {l : List Nat}
    (h : ∀ i ∈ l, ole (f i) (g i)) :
    ole (l.foldr (fun j acc => omin (f j) acc) none)
      (l.foldr (fun j acc => omin (g j) acc) none) := by
  induction l with
  | nil => exact ole_refl _
  | cons a t ih =>
    simp only [List.foldr_cons]
    refine ole_omin ?_ ?_
    · exact ole_trans (omin_le_left _ _) (h a (List.mem_cons_self a t))
    · exact ole_trans (omin_le_right _ _) (ih (fun i hi => h i (List.mem_cons_of_mem a hi)))

/-! ## Expansion evaluation lemmas -/

lemma mapM_ucl_ok {caps : List (String × ℚ)} :
    ∀ (l : List String), (∀ c ∈ l, (alookup c caps).isSome) →
      l.mapM (fun node =>
        match alookup node caps with
        | some c => Except.ok ((node, node ++ "_2", Payload.capdict c, "UCL-CL") : EEdge)
        | none => Except.error PyErr.keyError) =
      Except.ok (l.map (fun node =>
        (node, node ++ "_2", Payload.capdict ((alookup node caps).getD 0), "UCL-CL"))) := by
  intro l hl
  induction l with
  | nil => rfl
  | cons c t ih =>
    have hc := hl c (List.mem_cons_self c t)
    cases hlk : alookup c caps with
    | none => rw [hlk] at hc; cases hc
    | some q =>
      rw [List.mapM_cons, ih (fun x hx => hl x (List.mem_cons_of_mem c hx))]
      simp only [List.map_cons, hlk, Option.getD_some]
      rfl

lemma cpeg_expand_ok {nodes : List String} {edges : List OEdge} {computes : List String}
    {caps : List (String × ℚ)} {s d : String}
    (hc : ∀ c ∈ computes, (alookup c caps).isSome) :
    CPEG.expand_network nodes edges computes caps s d =
      Except.ok (cpegNodes nodes computes s, cpegEdges edges computes caps s d) := by
  unfold CPEG.expand_network
  rw [mapM_ucl_ok computes hc]
  rfl

lemma mapM_compute_ok {caps : List (String × ℚ)} :
    ∀ (l : List (Nat × String)), (∀ p ∈ l, (alookup p.2 caps).isSome) →
      l.mapM (fun ic =>
        match alookup ic.2 caps with
        | some c => Except.ok ((ic.2, ic.2 ++ "_" ++ toString (ic.1 + 1),
            Payload.capdict c, "compute") : EEdge)
        | none => Except.error PyErr.keyError) =
      Except.ok (l.map (fun ic =>
        (ic.2, ic.2 ++ "_" ++ toString (ic.1 + 1),
          Payload.capdict ((alookup ic.2 caps).getD 0), "compute"))) := by
  intro l hl
  induction l with
  | nil => rfl
  | cons c t ih =>
    have hc := hl c (List.mem_cons_self c t)
    cases hlk : alookup c.2 caps with
    | none => rw [hlk] at hc; cases hc
    | some q =>
      rw [List.mapM_cons, ih (fun x hx => hl x (List.mem_cons_of_mem c hx))]
      simp only [List.map_cons, hlk, Option.getD_some]
      rfl

lemma snd_mem_of_mem_enum {l : List String} {p : Nat × String} (h : p ∈ l.enum) :
    p.2 ∈ l := by
  rcases p with ⟨i, x⟩
  exact List.mem_iff_get?.mpr ⟨i, by simpa using List.mk_mem_enum_iff_get?.mp h⟩

lemma cne_expand_ok {nodes : List String} {edges : List OEdge} {computes : List String}
    {caps : List (String × ℚ)} {s d : String}
    (hc : ∀ c ∈ computes, (alookup c caps).isSome) :
    CNE.expand_network nodes edges computes caps s d =
      Except.ok (cneNodes nodes computes s d, cneEdges edges computes caps s d,
        d ++ "_Super_Dest") := by
  unfold CNE.expand_network
  rw [mapM_compute_ok computes.enum (fun p hp => hc p.2 (snd_mem_of_mem_enum hp))]
  rfl

lemma mem_weightedOf {F γ ω : ℚ} {caps : List (String × ℚ)} {E : List EEdge}
    {u v : String} {w : ℚ} :
    (u, v, w) ∈ weightedOf F γ ω caps E ↔
      ∃ pe tag, (u, v, pe, tag) ∈ E ∧ w = d_uv F γ ω caps u v tag pe := by
  constructor
  · intro h
    rcases List.mem_map.mp h with ⟨e, he, heq⟩
    rcases e with ⟨e1, e2, e3, e4⟩
    simp only [Prod.mk.injEq] at heq
    refine ⟨e3, e4, ?_, ?_⟩
    · rw [heq.1, heq.2.1] at he; exact he
    · rw [← heq.2.2, heq.1, heq.2.1]
  · rintro ⟨pe, tag, hmem, rfl⟩
    exact List.mem_map.mpr ⟨(u, v, pe, tag), hmem, rfl⟩

/-! ## Reachability stays inside clean node names -/

lemma omin_eq_none {x y : Option ℚ} (h : omin x y = none) : x = none ∧ y = none := by
  cases x <;> cases y <;> simp_all [omin]
  split at h <;> simp_all

lemma relax_ne_none {d : String → Option ℚ} {E : List WEdge} {v : String}
    (h : relax d E v ≠ none) :
    d v ≠ none ∨ ∃ u w, (u, v, w) ∈ E ∧ d u ≠ none := by
  induction E with
  | nil => exact Or.inl h
  | cons e E ih =>
    by_cases hv : e.2.1 = v
    · rw [relax, if_pos hv] at h
      by_cases h1 : relax d E v = none
      · right
        refine ⟨e.1, e.2.2, ?_, ?_⟩
        · rcases e with ⟨a, b, c⟩; simp only at hv; rw [← hv]; exact List.mem_cons_self _ _
        · intro hd
          apply h
          rw [h1]
          simp [oadd, hd, omin]
      · rcases ih h1 with h2 | ⟨u, w, hm, hd⟩
        · exact Or.inl h2
        · exact Or.inr ⟨u, w, List.mem_cons_of_mem e hm, hd⟩
    · rw [relax, if_neg hv] at h
      rcases ih h with h2 | ⟨u, w, hm, hd⟩
      · exact Or.inl h2
      · exact Or.inr ⟨u, w, List.mem_cons_of_mem e hm, hd⟩

/-- If the source name is underscore-free and every listed edge with an
underscore-free source also has an underscore-free target, then every node the
search can reach at finite distance is underscore-free. -/
lemma bf_finite_noUS {W : List WEdge} {src : String} (hsrc : NoUS src)
    (hW : ∀ u v w, (u, v, w) ∈ W → NoUS u → NoUS v) :
    ∀ k v, bf W src k v ≠ none → NoUS v := by
  intro k
  induction k with
  | zero =>
    intro v h
    simp only [bf, bfInit] at h
    by_cases hv : v = src
    · rw [hv]; exact hsrc
    · rw [if_neg hv] at h; exact absurd rfl h
  | succ k ih =>
    intro v h
    rcases relax_ne_none h with h1 | ⟨u, w, hm, hd⟩
    · exact ih v h1
    · exact hW u v w hm (ih u hd)

/-! ## Membership characterizations of the expanded edge lists -/

lemma mem_cpegEdges {edges : List OEdge} {computes : List String}
    {caps : List (String × ℚ)} {s d : String} {a b : String} {pe : Payload} {tag : String} :
    (a, b, pe, tag) ∈ cpegEdges edges computes caps s d ↔
      (∃ at_, (a, b, at_) ∈ edges ∧ b ≠ d ∧ pe = Payload.attrs at_ ∧ tag = "C-UCL") ∨
      (∃ c, c ∈ computes ∧ a = c ∧ b = c ++ "_2" ∧
        pe = Payload.capdict ((alookup c caps).getD 0) ∧ tag = "UCL-CL") ∨
      (∃ c, c ∈ computes ∧ a = c ++ "_2" ∧ b = c ++ "_3" ∧ pe = Payload.num 0 ∧
        tag = "CL-DCL") ∨
      (∃ u v at_, (u, v, at_) ∈ edges ∧ u ≠ s ∧ v ≠ s ∧ a = u ++ "_3" ∧ b = v ++ "_3" ∧
        pe = Payload.attrs at_ ∧ tag = "C-DCL") := by
  simp only [cpegEdges, List.mem_append, List.mem_map, List.mem_filter]
  constructor
  · rintro (((⟨e, ⟨he, hf⟩, heq⟩ | ⟨c, hc, heq⟩) | ⟨c, hc, heq⟩) | ⟨e, ⟨he, hf⟩, heq⟩)
    · rcases e with ⟨e1, e2, e3⟩
      simp only [Prod.mk.injEq] at heq
      refine Or.inl ⟨e3, ?_, ?_, heq.2.2.1.symm, heq.2.2.2.symm⟩
      · rw [heq.1, heq.2.1] at he; exact he
      · rw [← heq.2.1]; simpa using hf
    · simp only [Prod.mk.injEq] at heq
      exact Or.inr (Or.inl ⟨c, hc, heq.1.symm, heq.2.1.symm, heq.2.2.1.symm,
        heq.2.2.2.symm⟩)
    · simp only [Prod.mk.injEq] at heq
      exact Or.inr (Or.inr (Or.inl ⟨c, hc, heq.1.symm, heq.2.1.symm, heq.2.2.1.symm,
        heq.2.2.2.symm⟩))
    · rcases e with ⟨e1, e2, e3⟩
      simp only [Prod.mk.injEq] at heq
      simp only [Bool.and_eq_true, decide_eq_true_eq] at hf
      exact Or.inr (Or.inr (Or.inr ⟨e1, e2, e3, he, hf.1, hf.2, heq.1.symm, heq.2.1.symm,
        heq.2.2.1.symm, heq.2.2.2.symm⟩))
  · rintro (⟨at_, he, hbd, rfl, rfl⟩ | ⟨c, hc, rfl, rfl, rfl, rfl⟩ |
      ⟨c, hc, rfl, rfl, rfl, rfl⟩ | ⟨u, v, at_, he, hus, hvs, rfl, rfl, rfl, rfl⟩)
    · exact Or.inl (Or.inl (Or.inl ⟨(a, b, at_), ⟨he, by simpa using hbd⟩, rfl⟩))
    · exact Or.inl (Or.inl (Or.inr ⟨a, hc, rfl⟩))
    · exact Or.inl (Or.inr ⟨c, hc, rfl⟩)
    · exact Or.inr ⟨(u, v, at_), ⟨he, by simp [hus, hvs]⟩, rfl⟩

lemma cpegEdges_nil {edges : List OEdge} {caps : List (String × ℚ)} {s d : String} :
    cpegEdges edges [] caps s d =
      (edges.filter (fun e => e.2.1 ≠ d)).map
          (fun e => (e.1, e.2.1, Payload.attrs e.2.2, "C-UCL")) ++
        (edges.filter (fun e => e.1 ≠ s && e.2.1 ≠ s)).map
          (fun e => (e.1 ++ "_3", e.2.1 ++ "_3", Payload.attrs e.2.2, "C-DCL")) := by
  simp [cpegEdges]

lemma cneEdges_nil {edges : List OEdge} {caps : List (String × ℚ)} {s d : String} :
    cneEdges edges [] caps s d =
      edges.map (fun e => (e.1, e.2.1, Payload.attrs e.2.2, "original")) := by
  simp [cneEdges]

lemma cne_mem_orig {edges : List OEdge} {computes : List String}
    {caps : List (String × ℚ)} {s d u v : String} {at_ : EdgeAttrs}
    (h : (u, v, at_) ∈ edges) :
    (u, v, Payload.attrs at_, "original") ∈ cneEdges edges computes caps s d := by
  simp only [cneEdges, List.mem_append]
  exact Or.inl (Or.inl (Or.inl (List.mem_map.mpr ⟨(u, v, at_), h, rfl⟩)))

lemma cne_mem_copied {edges : List OEdge} {computes : List String}
    {caps : List (String × ℚ)} {s d u v : String} {at_ : EdgeAttrs} {i : Nat}
    (hi : i < computes.length) (h : (u, v, at_) ∈ edges) (hu : u ≠ s) (hv : v ≠ s) :
    (u ++ "_" ++ toString (i + 1), v ++ "_" ++ toString (i + 1),
      Payload.attrs at_, "copied") ∈ cneEdges edges computes caps s d := by
  simp only [cneEdges, List.mem_append]
  refine Or.inl (Or.inl (Or.inr ?_))
  refine List.mem_flatMap.mpr ⟨i, List.mem_range.mpr hi, ?_⟩
  exact List.mem_map.mpr ⟨(u, v, at_), List.mem_filter.mpr ⟨h, by simp [hu, hv]⟩, rfl⟩

lemma cne_mem_compute {edges : List OEdge} {computes : List String}
    {caps : List (String × ℚ)} {s d c : String} {i : Nat}
    (h : (i, c) ∈ computes.enum) :
    (c, c ++ "_" ++ toString (i + 1),
      Payload.capdict ((alookup c caps).getD 0), "compute") ∈
      cneEdges edges computes caps s d := by
  simp only [cneEdges, List.mem_append]
  exact Or.inl (Or.inr (List.mem_map.mpr ⟨(i, c), h, rfl⟩))

lemma cne_mem_aggregate {edges : List OEdge} {computes : List String}
    {caps : List (String × ℚ)} {s d : String} {i : Nat} (hi : i < computes.length) :
    (d ++ "_" ++ toString (i + 1), d ++ "_Super_Dest", Payload.num 0, "aggregate") ∈
      cneEdges edges computes caps s d := by
  simp only [cneEdges, List.mem_append]
  exact Or.inr (List.mem_map.mpr ⟨i, List.mem_range.mpr hi, rfl⟩)

lemma mem_weightedOfCNE {F γ ω : ℚ} {E : List EEdge} {u v : String} {w : ℚ} :
    (u, v, w) ∈ weightedOfCNE F γ ω E ↔
      ∃ pe tag, (u, v, pe, tag) ∈ E ∧ w = cne_weight F γ ω (u, v, pe, tag) := by
  constructor
  · intro h
    rcases List.mem_map.mp h with ⟨e, he, heq⟩
    rcases e with ⟨e1, e2, e3, e4⟩
    simp only [Prod.mk.injEq] at heq
    refine ⟨e3, e4, ?_, ?_⟩
    · rw [heq.1, heq.2.1] at he; exact he
    · rw [← heq.2.2, heq.1, heq.2.1]
  · rintro ⟨pe, tag, hmem, rfl⟩
    exact List.mem_map.mpr ⟨(u, v, pe, tag), hmem, rfl⟩

lemma not_noUS_append {x t : String} (ht : '_' ∈ t.data) : ¬ NoUS (x ++ t) := by
  intro h
  apply h
  rw [String.data_append]
  exact List.mem_append.mpr (Or.inr ht)

/-! ## Per-layer weight evaluation lemmas -/

lemma d_uv_ucl (F γ ω : ℚ) (caps : List (String × ℚ)) (u v : String) (a : EdgeAttrs) :
    d_uv F γ ω caps u v "C-UCL" (Payload.attrs a) = forwardDelay F a := by
  simp only [d_uv, Payload.bwD, Payload.ntD, forwardDelay, if_true, reduceIte]
  ring

lemma d_uv_dcl (F γ ω : ℚ) (caps : List (String × ℚ)) (u v : String) (a : EdgeAttrs) :
    d_uv F γ ω caps u v "C-DCL" (Payload.attrs a) = returnDelay γ F a := by
  have h : ¬ (("C-DCL" : String) = "C-UCL") := by decide
  simp only [d_uv, Payload.bwD, Payload.ntD, returnDelay, if_neg h, reduceIte]
  ring

lemma d_uv_uclcl (F γ ω : ℚ) (caps : List (String × ℚ)) (u v : String) (q : ℚ) :
    d_uv F γ ω caps u v "UCL-CL" (Payload.capdict q) =
      ω * F / ((alookup (firstSeg v) caps).getD 1) := by
  simp [d_uv]

lemma d_uv_cldcl (F γ ω : ℚ) (caps : List (String × ℚ)) (u v : String) (q : ℚ) :
    d_uv F γ ω caps u v "CL-DCL" (Payload.num q) = 0 := rfl

lemma mpcnFwdW_eq (F : ℚ) (a : EdgeAttrs) : mpcnFwdW F a = forwardDelay F a := by
  simp only [mpcnFwdW, forwardDelay]; ring

lemma mpcnRetW_eq (γ F : ℚ) (a : EdgeAttrs) : mpcnRetW γ F a = returnDelay γ F a := by
  simp only [mpcnRetW, returnDelay]; ring

lemma sumBy_congr {edges : List OEdge} {f g : EdgeAttrs → ℚ} (h : ∀ a, f a = g a)
    (p : List String) : sumBy edges f p = sumBy edges g p := by
  induction p with
  | nil => simp [sumBy]
  | cons x t ih =>
    cases t with
    | nil => simp [sumBy]
    | cons y r =>
      simp only [sumBy] at ih ⊢
      rw [h, ih]

/-! ## Claim C3 -/

/-- C3: the forward per-edge delay used by every strategy equals
`propagation + processing + queuing + jitter + flowSize/bandwidth` and the
return per-edge delay swaps the transmission term for
`gamma * flowSize/bandwidth`: this holds for the CPEG weight function `d_uv`
on both link layers, for MPCN's two weight lambdas, and for CCN's recomputed
five-term forward sum and single-expression return sum along any path. -/
theorem C3_link_delay_formulas (F γ ω : ℚ) (caps : List (String × ℚ)) (u v : String)
    (a : EdgeAttrs) (hbw : 0 < a.bandwidth) (hF : 0 < F) (hγ : 1 ≤ γ) :
    d_uv F γ ω caps u v "C-UCL" (Payload.attrs a) = forwardDelay F a ∧
    d_uv F γ ω caps u v "C-DCL" (Payload.attrs a) = returnDelay γ F a ∧
    mpcnFwdW F a = forwardDelay F a ∧
    mpcnRetW γ F a = returnDelay γ F a ∧
    (∀ (edges : List OEdge) (p : List String),
      sumBy edges (fun b => b.propagation_delay) p + sumBy edges (fun b => F / b.bandwidth) p +
        sumBy edges (fun b => b.processing_delay) p + sumBy edges (fun b => b.queuing_delay) p +
        sumBy edges (fun b => b.jitter) p = sumBy edges (forwardDelay F) p) ∧
    (∀ (edges : List OEdge) (p : List String),
      sumBy edges (fun b => b.propagation_delay + b.processing_delay + b.queuing_delay +
        γ * F / b.bandwidth + b.jitter) p = sumBy edges (returnDelay γ F) p) := by
  refine ⟨d_uv_ucl F γ ω caps u v a, d_uv_dcl F γ ω caps u v a, mpcnFwdW_eq F a,
    mpcnRetW_eq γ F a, ?_, ?_⟩
  · intro edges p
    rw [← sumBy_add, ← sumBy_add, ← sumBy_add, ← sumBy_add]
    exact sumBy_congr (fun b => by unfold forwardDelay; ring) p
  · intro edges p
    exact sumBy_congr (fun b => by unfold returnDelay; ring) p

/-- Witness for C3 at a concrete edge. -/
theorem C3_link_delay_formulas_witness :
    d_uv 2 3 10 [] "a" "b" "C-UCL" (Payload.attrs ⟨4, 1, 2, 3, 5⟩) =
      forwardDelay 2 ⟨4, 1, 2, 3, 5⟩ := by
  have h := C3_link_delay_formulas 2 3 10 [] "a" "b" ⟨4, 1, 2, 3, 5⟩
    (by norm_num) (by norm_num) (by norm_num)
  exact h.1

/-! ## Claim C5 -/

/-- Counterexample to C5: evaluating the compute-enter weight with a negative
listed capacity yields the negative value `-1` (no `InvalidCapacity` error is
raised), and with the node absent from the capacity map it silently defaults
the capacity to 1, yielding `omega * flowSize`. -/
theorem C5_counterexample :
    d_uv 1 1 1 [("c", -1)] "c" "c_2" "UCL-CL" (Payload.capdict (-1)) = -1 ∧
    d_uv 1 1 1 [] "c" "c_2" "UCL-CL" (Payload.capdict 5) = 1 := by
  constructor <;> with_unfolding_all decide

/-- C5 as amended: there is no `InvalidCapacity` mechanism.  On a dict-payload
`UCL-CL` edge the weight function totally computes
`omega * flowSize / capacities.get(v.split('_')[0], 1)` — silently defaulting
a missing capacity to 1 and using non-positive capacities as-is — and when the
capacity is present and equals `flowSize * omega ≠ 0` the compute delay is 1. -/
theorem C5_amended (F γ ω : ℚ) (caps : List (String × ℚ)) (u v : String) (p : Payload)
    (hp : ∀ q, p ≠ Payload.num q) :
    d_uv F γ ω caps u v "UCL-CL" p = ω * F / ((alookup (firstSeg v) caps).getD 1) ∧
    (alookup (firstSeg v) caps = some (F * ω) → F * ω ≠ 0 →
      d_uv F γ ω caps u v "UCL-CL" p = 1) := by
  have h1 : d_uv F γ ω caps u v "UCL-CL" p =
      ω * F / ((alookup (firstSeg v) caps).getD 1) := by
    cases p with
    | num q => exact absurd rfl (hp q)
    | attrs a => simp [d_uv]
    | capdict c => simp [d_uv]
  refine ⟨h1, fun hlk hne => ?_⟩
  rw [h1, hlk, Option.getD_some, mul_comm ω F]
  exact div_self hne

/-- Witness for C5's amended statement at a concrete input. -/
theorem C5_amended_witness :
    d_uv 2 1 3 [("c", 6)] "x" "c_2" "UCL-CL" (Payload.capdict 6) = 1 := by
  have h := C5_amended 2 1 3 [("c", 6)] "x" "c_2" (Payload.capdict 6)
    (fun q hq => by cases hq)
  exact h.2 (by with_unfolding_all decide) (by norm_num)

/-! ## Claim C10 -/

/-- C10: the expanded-graph weight function is total and silently defaults:
non-dict payloads weigh 0 on every layer, and every layer tag outside the four
CPEG tags (in particular the CNE replica tags `original`, `copied`, `compute`,
`aggregate`) weighs 0 for every payload. -/
theorem C10_default_weights (F γ ω : ℚ) (caps : List (String × ℚ)) (u v layer : String) :
    (∀ q : ℚ, d_uv F γ ω caps u v layer (Payload.num q) = 0) ∧
    (layer ∉ (["C-UCL", "C-DCL", "UCL-CL", "CL-DCL"] : List String) →
      ∀ p : Payload, d_uv F γ ω caps u v layer p = 0) := by
  constructor
  · intro q; rfl
  · intro hl p
    have h1 : layer ≠ "C-UCL" := fun h => hl (by simp [h])
    have h2 : layer ≠ "C-DCL" := fun h => hl (by simp [h])
    have h3 : layer ≠ "UCL-CL" := fun h => hl (by simp [h])
    have h4 : layer ≠ "CL-DCL" := fun h => hl (by simp [h])
    cases p with
    | num q => rfl
    | attrs a => simp [d_uv, h1, h2, h3, h4]
    | capdict c => simp [d_uv, h1, h2, h3, h4]

/-- Witness for C10 at the CNE replica layer tags. -/
theorem C10_default_weights_witness :
    d_uv 1 2 10 [] "a" "b" "original" (Payload.num 0) = 0 ∧
    d_uv 1 2 10 [] "a" "b" "copied" (Payload.attrs ⟨1, 1, 1, 1, 1⟩) = 0 ∧
    d_uv 1 2 10 [("b", 5)] "a" "b" "compute" (Payload.capdict 5) = 0 ∧
    d_uv 1 2 10 [] "a" "b" "aggregate" (Payload.num 0) = 0 := by
  refine ⟨(C10_default_weights 1 2 10 [] "a" "b" "original").1 0,
    (C10_default_weights 1 2 10 [] "a" "b" "copied").2 (by decide) _,
    (C10_default_weights 1 2 10 [("b", 5)] "a" "b" "compute").2 (by decide) _,
    (C10_default_weights 1 2 10 [] "a" "b" "aggregate").1 0⟩

/-! ## Claim C6: empty compute set -/

lemma cpeg_empty_bf_none {nodes : List String} {edges : List OEdge}
    {caps : List (String × ℚ)} {s d : String} {F γ ω : ℚ}
    (hyg : ∀ n ∈ nodes, NoUS n) (hend : ∀ e ∈ edges, e.1 ∈ nodes ∧ e.2.1 ∈ nodes)
    (hs : s ∈ nodes) :
    ∀ k, bf (weightedOf F γ ω caps (cpegEdges edges [] caps s d)) s k (d ++ "_3") = none := by
  intro k
  by_contra h
  refine not_noUS_append (x := d) (t := "_3") (by decide) ?_
  refine bf_finite_noUS (hyg s hs) ?_ k _ h
  intro u v w hmem hu
  rcases mem_weightedOf.mp hmem with ⟨pe, tag, hmem', _⟩
  rw [cpegEdges_nil] at hmem'
  rcases List.mem_append.mp hmem' with h1 | h1
  · rcases List.mem_map.mp h1 with ⟨e, he, heq⟩
    rcases e with ⟨e1, e2, e3⟩
    simp only [Prod.mk.injEq] at heq
    have := (hend _ (List.mem_filter.mp he).1).2
    rw [heq.2.1] at this
    exact hyg v this
  · rcases List.mem_map.mp h1 with ⟨e, he, heq⟩
    rcases e with ⟨e1, e2, e3⟩
    simp only [Prod.mk.injEq] at heq
    exact absurd hu (by rw [← heq.1]; exact not_noUS_append (by decide))

lemma cne_empty_bf_none {nodes : List String} {edges : List OEdge}
    {caps : List (String × ℚ)} {s d : String} {F γ ω : ℚ}
    (hyg : ∀ n ∈ nodes, NoUS n) (hend : ∀ e ∈ edges, e.1 ∈ nodes ∧ e.2.1 ∈ nodes)
    (hs : s ∈ nodes) :
    ∀ k, bf (weightedOfCNE F γ ω (cneEdges edges [] caps s d)) s k
      (d ++ "_Super_Dest") = none := by
  intro k
  by_contra h
  refine not_noUS_append (x := d) (t := "_Super_Dest") (by decide) ?_
  refine bf_finite_noUS (hyg s hs) ?_ k _ h
  intro u v w hmem hu
  rcases mem_weightedOfCNE.mp hmem with ⟨pe, tag, hmem', _⟩
  rw [cneEdges_nil] at hmem'
  rcases List.mem_map.mp hmem' with ⟨e, he, heq⟩
  rcases e with ⟨e1, e2, e3⟩
  simp only [Prod.mk.injEq] at heq
  have := (hend _ he).2
  rw [heq.2.1] at this
  exact hyg v this

/-- C6 as amended: on a Network with zero compute nodes (hence an empty
capacity dict), CCN and the spec-modelled CNE driver return the no-path
result `(none, +∞, [])`, but MPCN raises `ValueError` (Python's `max()` of
the empty capacity dict) and the CPEG script raises the uncaught
`NetworkXNoPath` instead of returning the no-path result. -/
theorem C6_amended (nodes : List String) (edges : List OEdge) (s d : String)
    (F γ ω : ℚ) (hyg : ∀ n ∈ nodes, NoUS n)
    (hend : ∀ e ∈ edges, e.1 ∈ nodes ∧ e.2.1 ∈ nodes) (hs : s ∈ nodes) :
    find_closest_compute_node nodes edges [] [] s d F ω γ = Except.ok (none, none, []) ∧
    find_max_capacity_compute_node nodes edges [] s d F ω γ =
      Except.error PyErr.valueError ∧
    cpeg_run nodes edges [] [] s d F γ ω = Except.error PyErr.noPath ∧
    cne_run nodes edges [] [] s d F γ ω = Except.ok (none, none, []) := by
  refine ⟨?_, ?_, ?_, ?_⟩
  · simp [find_closest_compute_node, ccn_select]
  · simp [find_max_capacity_compute_node, mpcn_select, maxCapEntry]
  · have hok := @cpeg_expand_ok nodes edges [] [] s d (by intro c hc; cases hc)
    unfold cpeg_run
    rw [hok]
    have hnone : shortest_path (weightedOf F γ ω [] (cpegEdges edges [] [] s d))
        (cpegNodes nodes [] s).length s (d ++ "_3") = none := by
      cases hsp : shortest_path (weightedOf F γ ω [] (cpegEdges edges [] [] s d))
          (cpegNodes nodes [] s).length s (d ++ "_3") with
      | none => rfl
      | some x =>
        exfalso
        have hfst := pbf_fst (weightedOf F γ ω [] (cpegEdges edges [] [] s d)) s
          (cpegNodes nodes [] s).length (d ++ "_3")
        unfold shortest_path at hsp
        rw [hsp] at hfst
        have := @cpeg_empty_bf_none nodes edges [] s d F γ ω hyg hend hs
          (cpegNodes nodes [] s).length
        rw [this] at hfst
        cases hfst
    show (match shortest_path (weightedOf F γ ω [] (cpegEdges edges [] [] s d))
        (cpegNodes nodes [] s).length s (d ++ "_3") with
      | none => Except.error PyErr.noPath
      | some (_, p) =>
        Except.ok (pathWeight (weightedOf F γ ω [] (cpegEdges edges [] [] s d)) p, p)) =
      Except.error PyErr.noPath
    rw [hnone]
  · have hok := @cne_expand_ok nodes edges [] [] s d (by intro c hc; cases hc)
    unfold cne_run
    rw [hok]
    have hnone : shortest_path (weightedOfCNE F γ ω (cneEdges edges [] [] s d))
        (cneNodes nodes [] s d).length s (d ++ "_Super_Dest") = none := by
      cases hsp : shortest_path (weightedOfCNE F γ ω (cneEdges edges [] [] s d))
          (cneNodes nodes [] s d).length s (d ++ "_Super_Dest") with
      | none => rfl
      | some x =>
        exfalso
        have hfst := pbf_fst (weightedOfCNE F γ ω (cneEdges edges [] [] s d)) s
          (cneNodes nodes [] s d).length (d ++ "_Super_Dest")
        unfold shortest_path at hsp
        rw [hsp] at hfst
        have := @cne_empty_bf_none nodes edges [] s d F γ ω hyg hend hs
          (cneNodes nodes [] s d).length
        rw [this] at hfst
        cases hfst
    show (match shortest_path (weightedOfCNE F γ ω (cneEdges edges [] [] s d))
        (cneNodes nodes [] s d).length s (d ++ "_Super_Dest") with
      | none => Except.ok (none, none, [])
      | some (c, p) =>
        Except.ok ((p.find? (fun x => decide ('_' ∈ x.data))).map firstSeg, some c,
          collapseDup ((p.filter (fun x => x ≠ d ++ "_Super_Dest")).map firstSeg))) =
      Except.ok (none, none, [])
    rw [hnone]

/-- Witness for C6's amended statement on the concrete compute-free network. -/
theorem C6_amended_witness :
    find_closest_compute_node n2nodes n2edges [] [] "s" "d" 1 1 1 =
      Except.ok (none, none, []) ∧
    cne_run n2nodes n2edges [] [] "s" "d" 1 1 1 = Except.ok (none, none, []) := by
  have h := C6_amended n2nodes n2edges "s" "d" 1 1 1 (by decide) (by decide) (by decide)
  exact ⟨h.1, h.2.2.2⟩

/-! ## Claim C9: non-negative expanded weights -/

lemma alookup_pos_of_getD {c : String} {caps : List (String × ℚ)}
    (h : 0 < (alookup c caps).getD 0) : ∃ q, alookup c caps = some q ∧ 0 < q := by
  cases hl : alookup c caps with
  | none => rw [hl] at h; simp at h
  | some q => exact ⟨q, rfl, by rwa [hl, Option.getD_some] at h⟩

/-- Counterexample to C9: the CPEG build performs no non-negativity assertion.
With the (invalid) capacity `-1` the expansion and weighting complete without
error and the resulting graph contains the negative edge weight `-1`. -/
theorem C9_counterexample :
    (CPEG.expand_network n1nodes n1edges ["c"] [("c", -1)] "s" "d").map
        (fun VE => weightedOf 1 1 1 [("c", -1)] VE.2) =
      Except.ok [("d", "c", 2), ("s", "c", 101), ("c", "c_2", -1), ("c_2", "c_3", 0),
        ("d_3", "c_3", 2), ("c_3", "d_3", 2)] ∧
    ((-1 : ℚ) < 0) := by
  constructor
  · with_unfolding_all decide
  · norm_num

/-- C9 as amended: for every valid Network and FlowRequest the CPEG expansion
succeeds and every weight `d_uv` assigns to an expanded edge — upstream
forward delays, downstream return delays, compute-enter delays, and the
zero-weight linking edges — is non-negative; but this is a consequence of the
input invariants only: no assertion checks it at build time (see the
counterexample, where an invalid capacity flows through silently). -/
theorem C9_amended (nodes : List String) (edges : List OEdge) (computes : List String)
    (caps : List (String × ℚ)) (s d : String) (F γ ω : ℚ)
    (hv : ValidNet nodes edges computes caps s d) (hf : ValidFlow F γ ω) :
    CPEG.expand_network nodes edges computes caps s d =
      Except.ok (cpegNodes nodes computes s, cpegEdges edges computes caps s d) ∧
    ∀ u v w, (u, v, w) ∈ weightedOf F γ ω caps (cpegEdges edges computes caps s d) →
      0 ≤ w := by
  obtain ⟨hnd, hcnd, hend, hpair, hcn, hcap, hattr, hsm, hdm, hsd, hsc, hdc, hyg⟩ := hv
  obtain ⟨hF, hγ, hω⟩ := hf
  have hsome : ∀ c ∈ computes, (alookup c caps).isSome := by
    intro c hc
    obtain ⟨q, hq, _⟩ := alookup_pos_of_getD (hcap c hc)
    rw [hq]; rfl
  refine ⟨cpeg_expand_ok hsome, ?_⟩
  intro u v w hmem
  rcases mem_weightedOf.mp hmem with ⟨pe, tag, hmem', rfl⟩
  rcases mem_cpegEdges.mp hmem' with
    ⟨at_, he, _, rfl, rfl⟩ | ⟨c, hc, rfl, rfl, rfl, rfl⟩ |
    ⟨c, hc, rfl, rfl, rfl, rfl⟩ | ⟨u0, v0, at_, he, _, _, rfl, rfl, rfl, rfl⟩
  · rw [d_uv_ucl]
    obtain ⟨hbw, hp, hpr, hq, hj⟩ := hattr _ he
    unfold forwardDelay
    have : 0 ≤ F / at_.bandwidth := le_of_lt (div_pos hF hbw)
    linarith
  · rw [d_uv_uclcl]
    have hcu : NoUS u := hyg u (hcn u hc)
    rw [firstSeg_append hcu (by decide)]
    obtain ⟨q, hq, hqpos⟩ := alookup_pos_of_getD (hcap u hc)
    rw [hq, Option.getD_some]
    positivity
  · rw [d_uv_cldcl]
  · rw [d_uv_dcl]
    obtain ⟨hbw, hp, hpr, hq, hj⟩ := hattr _ he
    unfold returnDelay
    have hγ0 : 0 < γ := lt_of_lt_of_le one_pos hγ
    have : 0 ≤ γ * F / at_.bandwidth := le_of_lt (div_pos (mul_pos hγ0 hF) hbw)
    linarith

/-- Witness for C9's amended statement on the first concrete network. -/
theorem C9_amended_witness :
    ("d", "c", (2 : ℚ)) ∈ weightedOf 1 1 1 n1caps (cpegEdges n1edges ["c"] n1caps "s" "d") ∧
    (0 : ℚ) ≤ 2 := by
  refine ⟨by with_unfolding_all decide, ?_⟩
  exact (C9_amended n1nodes n1edges ["c"] n1caps "s" "d" 1 1 1 (by decide)
    (by norm_num [ValidFlow])).2 "d" "c" 2 (by with_unfolding_all decide)

/-! ## Claim C2: the CPEG expanded graph -/

/-- C2: for valid inputs the CPEG expansion succeeds and the weighted expanded
graph is exactly: one upstream copy (forward delay) of every original edge not
entering the destination; one downstream copy on `_3`-suffixed names (return
delay) of every original edge touching neither endpoint at the source; for
every compute node `c` the enter edge `c → c_2` weighted
`omega * flowSize / capacity(c)` and the zero-weight link `c_2 → c_3`; and
nothing else.  (The middle-layer and downstream node lists are part of the
returned node set.) -/
theorem C2_expanded_graph (nodes : List String) (edges : List OEdge)
    (computes : List String) (caps : List (String × ℚ)) (s d : String) (F γ ω : ℚ)
    (hv : ValidNet nodes edges computes caps s d) :
    CPEG.expand_network nodes edges computes caps s d =
      Except.ok (nodes ++ computes.map (fun c => c ++ "_2") ++
          (nodes.filter (fun n => n ≠ s)).map (fun n => n ++ "_3"),
        cpegEdges edges computes caps s d) ∧
    weightedOf F γ ω caps (cpegEdges edges computes caps s d) =
      (edges.filter (fun e => e.2.1 ≠ d)).map
          (fun e => (e.1, e.2.1, forwardDelay F e.2.2)) ++
        computes.map (fun c => (c, c ++ "_2", ω * F / ((alookup c caps).getD 1))) ++
        computes.map (fun c => (c ++ "_2", c ++ "_3", (0 : ℚ))) ++
        (edges.filter (fun e => e.1 ≠ s && e.2.1 ≠ s)).map
          (fun e => (e.1 ++ "_3", e.2.1 ++ "_3", returnDelay γ F e.2.2)) := by
  obtain ⟨hnd, hcnd, hend, hpair, hcn, hcap, hattr, hsm, hdm, hsd, hsc, hdc, hyg⟩ := hv
  have hsome : ∀ c ∈ computes, (alookup c caps).isSome := by
    intro c hc
    obtain ⟨q, hq, _⟩ := alookup_pos_of_getD (hcap c hc)
    rw [hq]; rfl
  constructor
  · exact cpeg_expand_ok hsome
  · unfold cpegEdges weightedOf
    rw [List.map_append, List.map_append, List.map_append]
    congr 1
    congr 1
    congr 1
    · rw [List.map_map]
      apply List.map_congr_left
      intro e _
      simp only [Function.comp_apply]
      rw [d_uv_ucl]
    · rw [List.map_map]
      apply List.map_congr_left
      intro c hc
      simp only [Function.comp_apply]
      rw [d_uv_uclcl, firstSeg_append (hyg c (hcn c hc)) (by decide)]
    · rw [List.map_map]
      apply List.map_congr_left
      intro c _
      simp only [Function.comp_apply]
      rw [d_uv_cldcl]
    · rw [List.map_map]
      apply List.map_congr_left
      intro e _
      simp only [Function.comp_apply]
      rw [d_uv_dcl]

/-- Witness for C2 on the first concrete network. -/
theorem C2_expanded_graph_witness :
    weightedOf 1 1 1 n1caps (cpegEdges n1edges ["c"] n1caps "s" "d") =
      [("d", "c", 2), ("s", "c", 101)] ++ [("c", "c_2", 1)] ++ [("c_2", "c_3", 0)] ++
        [("d_3", "c_3", 2), ("c_3", "d_3", 2)] := by
  have h := (C2_expanded_graph n1nodes n1edges ["c"] n1caps "s" "d" 1 1 1 (by decide)).2
  rw [h]
  with_unfolding_all decide

/-! ## Claim C4 -/

/-- Counterexample to C4: on `n4`, CCN (the code) picks the return path
`c → a → d` (cheapest by propagation) and reports total 205, while the
behaviour the claim describes — return path chosen by full return-delay
weighting — picks `c → b → d` and reports 651/50. -/
theorem C4_counterexample :
    find_closest_compute_node n4nodes n4edges ["c"] n4caps "s" "d" 1 1 1 =
      Except.ok (some "c", some 205, ["s", "c", "a", "d"]) ∧
    ccn_claim n4nodes n4edges ["c"] n4caps "s" "d" 1 1 1 =
      Except.ok (some "c", some (651 / 50), ["s", "c", "b", "d"]) ∧
    (205 : ℚ) ≠ 651 / 50 := by
  refine ⟨?_, ?_, ?_⟩ <;> with_unfolding_all decide

lemma foldl_min_mem {α : Type} (f : α → ℚ) :
    ∀ (xs : List α) (x : α),
      xs.foldl (fun b y => if f y < f b then y else b) x ∈ x :: xs := by
  intro xs
  induction xs with
  | nil => intro x; simp
  | cons y ys ih =>
    intro x
    simp only [List.foldl_cons]
    by_cases h : f y < f x
    · rw [if_pos h]
      rcases List.mem_cons.mp (ih y) with h' | h'
      · rw [h']; simp
      · simp [h']
    · rw [if_neg h]
      rcases List.mem_cons.mp (ih x) with h' | h'
      · rw [h']; simp
      · simp [h']

lemma foldl_min_le {α : Type} (f : α → ℚ) :
    ∀ (xs : List α) (x : α) (y : α), y ∈ x :: xs →
      f (xs.foldl (fun b z => if f z < f b then z else b) x) ≤ f y := by
  intro xs
  induction xs with
  | nil =>
    intro x y hy
    rcases List.mem_cons.mp hy with rfl | h
    · simp
    · cases h
  | cons z zs ih =>
    intro x y hy
    simp only [List.foldl_cons]
    have hb : ∀ w, w ∈ x :: z :: zs →
        f (if f z < f x then z else x) ≤ f w ∨ w ∈ zs ∨
          w = (if f z < f x then z else x) := by
      intro w hw
      rcases List.mem_cons.mp hw with hwx | hw'
      · by_cases h : f z < f x
        · exact Or.inl (by rw [if_pos h, hwx]; linarith)
        · exact Or.inl (by rw [if_neg h, hwx])
      · rcases List.mem_cons.mp hw' with hwz | hw''
        · by_cases h : f z < f x
          · exact Or.inl (by rw [if_pos h, hwz])
          · exact Or.inl (by rw [if_neg h, hwz]; linarith)
        · exact Or.inr (Or.inl hw'')
    rcases hb y hy with h | h | h
    · calc f (zs.foldl (fun b w => if f w < f b then w else b) (if f z < f x then z else x)) ≤
            f (if f z < f x then z else x) :=
            ih _ _ (List.mem_cons_self _ _)
        _ ≤ f y := h
    · exact ih _ _ (List.mem_cons_of_mem _ h)
    · rw [h]
      exact ih _ _ (List.mem_cons_self _ _)

lemma ccn_select_facts (nodes : List String) (edges : List OEdge)
    (computes : List String) (s d : String)
    (c : String) (key : ℚ) (p1 p2 : List String)
    (hsel : ccn_select nodes edges computes s d = some (c, key, p1, p2)) :
    c ∈ computes ∧
    (∃ k1, shortest_path (propEdges edges) nodes.length s c = some (k1, p1)) ∧
    (∃ k2, shortest_path (propEdges edges) nodes.length c d = some (k2, p2)) ∧
    key = sumBy edges (fun a => a.propagation_delay) p1 ∧
    (∀ c' k1' p1' k2' p2', c' ∈ computes →
      shortest_path (propEdges edges) nodes.length s c' = some (k1', p1') →
      shortest_path (propEdges edges) nodes.length c' d = some (k2', p2') →
      key ≤ sumBy edges (fun a => a.propagation_delay) p1') := by
  have hvalid := hsel
  unfold ccn_select at hvalid
  simp only [] at hvalid
  set valid := computes.filterMap (fun compute_node =>
    match shortest_path (propEdges edges) nodes.length s compute_node,
      shortest_path (propEdges edges) nodes.length compute_node d with
    | some (_, path_to_compute), some (_, path_to_dest) =>
      some (compute_node,
        sumBy edges (fun a => a.propagation_delay) path_to_compute,
        path_to_compute, path_to_dest)
    | _, _ => none) with hvdef
  have hmem : (c, key, p1, p2) ∈ valid ∧
      ∀ y ∈ valid, key ≤ y.2.1 := by
    cases hv : valid with
    | nil => rw [hv] at hvalid; cases hvalid
    | cons x xs =>
      rw [hv] at hvalid
      simp only [Option.some_inj] at hvalid
      constructor
      · rw [← hvalid]
        exact foldl_min_mem (fun y => y.2.1) xs x
      · intro y hy
        have := foldl_min_le (fun z => z.2.1) xs x y hy
        rw [hvalid] at this
        exact this
  have hdecode : ∀ y ∈ valid, y.1 ∈ computes ∧
      ∃ k1 k2, shortest_path (propEdges edges) nodes.length s y.1 = some (k1, y.2.2.1) ∧
        shortest_path (propEdges edges) nodes.length y.1 d = some (k2, y.2.2.2) ∧
        y.2.1 = sumBy edges (fun a => a.propagation_delay) y.2.2.1 := by
    intro y hy
    rw [hvdef] at hy
    rcases List.mem_filterMap.mp hy with ⟨c', hc', hg⟩
    cases hsp1 : shortest_path (propEdges edges) nodes.length s c' with
    | none => rw [hsp1] at hg; cases hg
    | some x1 =>
      cases hsp2 : shortest_path (propEdges edges) nodes.length c' d with
      | none => rw [hsp1, hsp2] at hg; cases hg
      | some x2 =>
        rcases x1 with ⟨k1, q1⟩
        rcases x2 with ⟨k2, q2⟩
        rw [hsp1, hsp2] at hg
        simp only [Option.some_inj] at hg
        rw [← hg]
        exact ⟨hc', k1, k2, hsp1, hsp2, rfl⟩
  obtain ⟨hcm, ⟨k1, k2, hsp1, hsp2, hkey⟩⟩ := hdecode _ hmem.1
  refine ⟨hcm, ⟨k1, hsp1⟩, ⟨k2, hsp2⟩, hkey, ?_⟩
  intro c' k1' p1' k2' p2' hc' hq1 hq2
  have hin : (c', sumBy edges (fun a => a.propagation_delay) p1', p1', p2') ∈ valid := by
    rw [hvdef]
    refine List.mem_filterMap.mpr ⟨c', hc', ?_⟩
    rw [hq1, hq2]
  exact hmem.2 _ hin

lemma ccn_run_eq {nodes : List String} {edges : List OEdge} {computes : List String}
    {caps : List (String × ℚ)} {s d : String} {F ω γ : ℚ}
    {c : String} {key q : ℚ} {p1 p2 : List String}
    (hsel : ccn_select nodes edges computes s d = some (c, key, p1, p2))
    (hq : alookup c caps = some q) :
    find_closest_compute_node nodes edges computes caps s d F ω γ =
      Except.ok (some c,
        some (sumBy edges (forwardDelay F) p1 + sumBy edges (returnDelay γ F) p2 +
          ω * F / q),
        p1.dropLast ++ p2) := by
  unfold find_closest_compute_node
  rw [hsel]
  simp only [hq]
  simp only [Except.ok.injEq, Prod.mk.injEq, Option.some_inj]
  refine ⟨trivial, ?_, trivial⟩
  have hfwd : sumBy edges (fun a => a.propagation_delay) p1 +
      sumBy edges (fun a => F / a.bandwidth) p1 +
      sumBy edges (fun a => a.processing_delay) p1 +
      sumBy edges (fun a => a.queuing_delay) p1 +
      sumBy edges (fun a => a.jitter) p1 = sumBy edges (forwardDelay F) p1 := by
    rw [← sumBy_add, ← sumBy_add, ← sumBy_add, ← sumBy_add]
    exact sumBy_congr (fun b => by unfold forwardDelay; ring) p1
  have hret : sumBy edges (fun a => a.propagation_delay + a.processing_delay +
      a.queuing_delay + γ * F / a.bandwidth + a.jitter) p2 =
      sumBy edges (returnDelay γ F) p2 :=
    sumBy_congr (fun b => by unfold returnDelay; ring) p2
  rw [← hfwd, ← hret]

lemma mpcn_run_eq {nodes : List String} {edges : List OEdge}
    {caps : List (String × ℚ)} {s d : String} {F ω γ : ℚ}
    {m : String × ℚ} {p1 p2 : List String}
    (hms : mpcn_select nodes edges caps s d F γ = some (m, some (p1, p2))) :
    find_max_capacity_compute_node nodes edges caps s d F ω γ =
      Except.ok (some m.1,
        some (sumBy edges (forwardDelay F) p1 + sumBy edges (returnDelay γ F) p2 +
          ω * F / m.2),
        p1.dropLast ++ p2) := by
  unfold find_max_capacity_compute_node
  rw [hms]
  simp only [Except.ok.injEq, Prod.mk.injEq, Option.some_inj]
  refine ⟨trivial, ?_, trivial⟩
  rw [sumBy_congr (mpcnFwdW_eq F) p1, sumBy_congr (mpcnRetW_eq γ F) p2]

/-- C4 as amended: CCN selects the compute node whose propagation-weighted
`source → node` query has the minimum recomputed propagation sum among
bidirectionally reachable compute nodes, and its return path is also the
propagation-weighted shortest-path result (NOT a full-return-delay-weighted
one); the reported total is the full five-term forward delay along the chosen
forward path, plus the full return delay along the propagation-chosen return
path, plus the compute delay. -/
theorem C4_amended (nodes : List String) (edges : List OEdge) (computes : List String)
    (caps : List (String × ℚ)) (s d : String) (F ω γ : ℚ)
    (c : String) (key : ℚ) (p1 p2 : List String)
    (hsel : ccn_select nodes edges computes s d = some (c, key, p1, p2)) :
    c ∈ computes ∧
    (∃ k1, shortest_path (propEdges edges) nodes.length s c = some (k1, p1)) ∧
    (∃ k2, shortest_path (propEdges edges) nodes.length c d = some (k2, p2)) ∧
    key = sumBy edges (fun a => a.propagation_delay) p1 ∧
    (∀ c' k1' p1' k2' p2', c' ∈ computes →
      shortest_path (propEdges edges) nodes.length s c' = some (k1', p1') →
      shortest_path (propEdges edges) nodes.length c' d = some (k2', p2') →
      key ≤ sumBy edges (fun a => a.propagation_delay) p1') ∧
    (∀ q, alookup c caps = some q →
      find_closest_compute_node nodes edges computes caps s d F ω γ =
        Except.ok (some c,
          some (sumBy edges (forwardDelay F) p1 + sumBy edges (returnDelay γ F) p2 +
            ω * F / q),
          p1.dropLast ++ p2)) := by
  obtain ⟨hcm, hk1, hk2, hkey, hmin⟩ :=
    ccn_select_facts nodes edges computes s d c key p1 p2 hsel
  exact ⟨hcm, hk1, hk2, hkey, hmin, fun q hq => ccn_run_eq hsel hq⟩

/-! ## Claim C7: path well-formedness -/

lemma except_bind_ok {ε α β : Type} (a : α) (f : α → Except ε β) :
    (Except.ok a >>= f) = f a := rfl

lemma except_pure {ε α : Type} (a : α) : (pure a : Except ε α) = Except.ok a := rfl

lemma dropLast_append_cons {x : String} {t1 : List String} {c : String}
    (hl : (x :: t1).getLast? = some c) (t2 : List String) :
    (x :: t1).dropLast ++ (c :: t2) = x :: (t1 ++ t2) := by
  induction t1 generalizing x with
  | nil =>
    simp only [List.getLast?_singleton, Option.some_inj] at hl
    simp [hl]
  | cons y t1' ih =>
    have hl' : (y :: t1').getLast? = some c := by
      rw [List.getLast?_cons_cons] at hl
      exact hl
    calc (x :: y :: t1').dropLast ++ (c :: t2)
        = x :: ((y :: t1').dropLast ++ (c :: t2)) := by simp
      _ = x :: (y :: (t1' ++ t2)) := by rw [ih hl']
      _ = x :: ((y :: t1') ++ t2) := by simp

lemma nchain_append {edges : List OEdge} {x : String} {t1 : List String} {c : String}
    {t2 : List String} (h1 : NChain edges x t1) (hl : (x :: t1).getLast? = some c)
    (h2 : NChain edges c t2) : NChain edges x (t1 ++ t2) := by
  induction h1 with
  | nil y =>
    simp only [List.getLast?_singleton, Option.some_inj] at hl
    rw [hl]
    exact h2
  | @cons y v q a hm hch ih =>
    have hl' : (v :: q).getLast? = some c := by
      rw [List.getLast?_cons_cons] at hl
      exact hl
    exact NChain.cons a hm (ih hl')

lemma sp_path_facts {edges : List OEdge} {M : EdgeAttrs → ℚ} {rounds : Nat}
    {s v : String} {k : ℚ} {p : List String}
    (h : shortest_path (edges.map (fun e => (e.1, e.2.1, M e.2.2))) rounds s v =
      some (k, p)) :
    ∃ t, p = s :: t ∧ NChain edges s t ∧ p.getLast? = some v := by
  obtain ⟨hw, hh, hl, _⟩ := pbf_inv h
  cases p with
  | nil => cases hh
  | cons x t =>
    simp only [List.head?_cons, Option.some_inj] at hh
    rw [hh] at hw hl ⊢
    exact ⟨t, rfl, swalk_to_nchain hw s t rfl, hl⟩

/-- Counterexample to C7: the CPEG script returns the raw expanded-graph path:
on `n1` it contains the composite identifiers `c_2`, `c_3`, `d_3`, which are
not nodes of the original network, and it ends at `d_3`, not at the
destination `d`. -/
theorem C7_counterexample :
    cpeg_run n1nodes n1edges ["c"] n1caps "s" "d" 1 1 1 =
      Except.ok (some 104, ["s", "c", "c_2", "c_3", "d_3"]) ∧
    "c_2" ∈ (["s", "c", "c_2", "c_3", "d_3"] : List String) ∧
    "c_2" ∉ n1nodes ∧
    (["s", "c", "c_2", "c_3", "d_3"] : List String).getLast? = some "d_3" ∧
    "d_3" ≠ "d" := by
  refine ⟨?_, ?_, ?_, ?_, ?_⟩ <;> with_unfolding_all decide

/-- C7 as amended: CCN and MPCN return, when a node is selected, a path that
starts at the source, ends at the destination, and whose consecutive pairs are
directed edges of the original network; the CPEG script instead returns the
raw expanded-graph path, which starts at the source but ends at the suffixed
DCL copy of the destination and is not unexpanded to original identifiers. -/
theorem C7_amended (nodes : List String) (edges : List OEdge) (computes : List String)
    (caps : List (String × ℚ)) (s d : String) (F ω γ : ℚ) :
    (∀ c t p, find_closest_compute_node nodes edges computes caps s d F ω γ =
        Except.ok (some c, t, p) →
      ∃ tl, p = s :: tl ∧ NChain edges s tl ∧ p.getLast? = some d) ∧
    (∀ c t p, find_max_capacity_compute_node nodes edges caps s d F ω γ =
        Except.ok (some c, t, p) →
      ∃ tl, p = s :: tl ∧ NChain edges s tl ∧ p.getLast? = some d) ∧
    (∀ t p, cpeg_run nodes edges computes caps s d F γ ω = Except.ok (t, p) →
      ∃ tl, p = s :: tl ∧ p.getLast? = some (d ++ "_3")) := by
  refine ⟨?_, ?_, ?_⟩
  · intro c t p hres
    unfold find_closest_compute_node at hres
    cases hsel : ccn_select nodes edges computes s d with
    | none =>
      rw [hsel] at hres
      simp only [Except.ok.injEq, Prod.mk.injEq] at hres
      cases hres.1
    | some y =>
      rcases y with ⟨c', key, p1, p2⟩
      rw [hsel] at hres
      cases hq : alookup c' caps with
      | none => simp only [hq] at hres; cases hres
      | some q =>
        simp only [hq] at hres
        simp only [Except.ok.injEq, Prod.mk.injEq, Option.some_inj] at hres
        obtain ⟨hcm, ⟨k1, hsp1⟩, ⟨k2, hsp2⟩, _, _⟩ :=
          ccn_select_facts nodes edges computes s d c' key p1 p2 hsel
        obtain ⟨t1, rfl, hch1, hl1⟩ := sp_path_facts hsp1
        obtain ⟨t2, rfl, hch2, hl2⟩ := sp_path_facts hsp2
        rw [← hres.2.2]
        rw [dropLast_append_cons hl1 t2]
        refine ⟨t1 ++ t2, rfl, nchain_append hch1 hl1 hch2, ?_⟩
        rw [← dropLast_append_cons hl1 t2, List.getLast?_append, hl2]
        rfl
  · intro c t p hres
    unfold find_max_capacity_compute_node at hres
    cases hms : mpcn_select nodes edges caps s d F γ with
    | none => rw [hms] at hres; cases hres
    | some y =>
      rcases y with ⟨m, op⟩
      cases op with
      | none =>
        rw [hms] at hres
        simp only [Except.ok.injEq, Prod.mk.injEq] at hres
        cases hres.1
      | some pp =>
        rcases pp with ⟨p1, p2⟩
        rw [hms] at hres
        simp only [Except.ok.injEq, Prod.mk.injEq, Option.some_inj] at hres
        have hsel := hms
        unfold mpcn_select at hsel
        cases hmax : maxCapEntry caps with
        | none => rw [hmax] at hsel; cases hsel
        | some m' =>
          simp only [hmax] at hsel
          cases hsp1 : shortest_path
              (edges.map (fun e => (e.1, e.2.1, mpcnFwdW F e.2.2)))
              nodes.length s m'.1 with
          | none =>
            simp only [hsp1] at hsel
            simp only [Option.some_inj, Prod.mk.injEq] at hsel
            cases hsel.2
          | some x1 =>
            cases hsp2 : shortest_path
                (edges.map (fun e => (e.1, e.2.1, mpcnRetW γ F e.2.2)))
                nodes.length m'.1 d with
            | none =>
              simp only [hsp1, hsp2] at hsel
              simp only [Option.some_inj, Prod.mk.injEq] at hsel
              cases hsel.2
            | some x2 =>
              rcases x1 with ⟨k1, q1⟩
              rcases x2 with ⟨k2, q2⟩
              simp only [hsp1, hsp2] at hsel
              simp only [Option.some_inj, Prod.mk.injEq] at hsel
              obtain ⟨rfl, hqq⟩ := hsel
              obtain ⟨rfl, rfl⟩ := hqq
              obtain ⟨t1, rfl, hch1, hl1⟩ := sp_path_facts hsp1
              obtain ⟨t2, rfl, hch2, hl2⟩ := sp_path_facts hsp2
              rw [← hres.2.2]
              rw [dropLast_append_cons hl1 t2]
              refine ⟨t1 ++ t2, rfl, nchain_append hch1 hl1 hch2, ?_⟩
              rw [← dropLast_append_cons hl1 t2, List.getLast?_append, hl2]
              rfl
  · intro t p hres
    cases hexp : CPEG.expand_network nodes edges computes caps s d with
    | error e =>
      unfold cpeg_run at hres
      rw [hexp] at hres
      cases hres
    | ok VE =>
      rcases VE with ⟨V, E⟩
      unfold cpeg_run at hres
      rw [hexp, except_bind_ok] at hres
      cases hsp : shortest_path (weightedOf F γ ω caps E) V.length s (d ++ "_3") with
      | none =>
        simp only [hsp] at hres
        cases hres
      | some x =>
        rcases x with ⟨k, pp⟩
        simp only [hsp, except_pure] at hres
        simp only [Except.ok.injEq, Prod.mk.injEq] at hres
        obtain ⟨hw, hh, hl, _⟩ := pbf_inv hsp
        cases pp with
        | nil => cases hh
        | cons x tl =>
          simp only [List.head?_cons, Option.some_inj] at hh
          rw [← hres.2, hh]
          exact ⟨tl, rfl, by rw [← hh]; exact hl⟩

/-! ## Lifting original-graph walks into the CPEG expanded graph -/

lemma nchain_subset {edges : List OEdge} {nodes : List String}
    (hend : ∀ e ∈ edges, e.1 ∈ nodes ∧ e.2.1 ∈ nodes) :
    ∀ {x : String} {t : List String}, NChain edges x t → ∀ y ∈ t, y ∈ nodes := by
  intro x t hch
  induction hch with
  | nil y => intro y hy; cases hy
  | @cons y v q a hm hch0 ih =>
    intro z hz
    rcases List.mem_cons.mp hz with rfl | hz'
    · exact (hend _ hm).2
    · exact ih z hz'

lemma nodup_length_le {l L : List String} (hnd : l.Nodup) (hsub : ∀ x ∈ l, x ∈ L) :
    l.length ≤ L.length := by
  classical
  calc l.length = l.toFinset.card := (List.toFinset_card_of_nodup hnd).symm
    _ ≤ L.toFinset.card := Finset.card_le_card
        (fun x hx => List.mem_toFinset.mpr (hsub x (List.mem_toFinset.mp hx)))
    _ ≤ L.length := L.toFinset_card_le

lemma filter_ne_length {l : List String} (s : String) (hnd : l.Nodup) :
    l.length ≤ (l.filter (fun x => x ≠ s)).length + 1 := by
  induction l with
  | nil => simp
  | cons a t ih =>
    obtain ⟨hat, hndt⟩ := List.nodup_cons.mp hnd
    by_cases h : a = s
    · have hft : t.filter (fun x => x ≠ s) = t := by
        apply List.filter_eq_self.mpr
        intro x hx
        simp only [ne_eq, decide_eq_true_eq]
        intro hxs
        apply hat
        rw [h, ← hxs]
        exact hx
      simp only [List.filter_cons, h]
      simp only [List.length_cons, hft]
      simp
    · simp only [List.filter_cons]
      have : (decide (a ≠ s)) = true := by simp [h]
      rw [this]
      simp only [if_true, List.length_cons, Nat.add_le_add_iff_right]
      have := ih hndt
      omega

lemma chainU {edges : List OEdge} {computes : List String}
    {caps : List (String × ℚ)} {s d : String} {F γ ω : ℚ}
    (hnd : nodupPairsO edges) {x : String} {t : List String}
    (hch : NChain edges x t) (hd : ∀ y ∈ t, y ≠ d) :
    ChainFrom (weightedOf F γ ω caps (cpegEdges edges computes caps s d)) x t
      (sumBy edges (forwardDelay F) (x :: t)) := by
  induction hch with
  | nil y => exact ChainFrom.nil y
  | @cons y v q a hm hch0 ih =>
    have hvne : v ≠ d := hd v (List.mem_cons_self v q)
    have hmem : (y, v, d_uv F γ ω caps y v "C-UCL" (Payload.attrs a)) ∈
        weightedOf F γ ω caps (cpegEdges edges computes caps s d) :=
      mem_weightedOf.mpr ⟨Payload.attrs a, "C-UCL",
        mem_cpegEdges.mpr (Or.inl ⟨a, hm, hvne, rfl, rfl⟩), rfl⟩
    rw [d_uv_ucl] at hmem
    rw [sumBy_cons_of_mem _ _ hm hnd]
    exact ChainFrom.cons hmem (ih (fun z hz => hd z (List.mem_cons_of_mem v hz)))

lemma chainD {edges : List OEdge} {computes : List String}
    {caps : List (String × ℚ)} {s d : String} {F γ ω : ℚ}
    (hnd : nodupPairsO edges) {x : String} {t : List String}
    (hch : NChain edges x t) (hx : x ≠ s) (hts : ∀ y ∈ t, y ≠ s) :
    ChainFrom (weightedOf F γ ω caps (cpegEdges edges computes caps s d)) (x ++ "_3")
      (t.map (fun y => y ++ "_3")) (sumBy edges (returnDelay γ F) (x :: t)) := by
  induction hch with
  | nil y => exact ChainFrom.nil (y ++ "_3")
  | @cons y v q a hm hch0 ih =>
    have hvne : v ≠ s := hts v (List.mem_cons_self v q)
    have hmem : (y ++ "_3", v ++ "_3", d_uv F γ ω caps (y ++ "_3") (v ++ "_3") "C-DCL"
        (Payload.attrs a)) ∈
        weightedOf F γ ω caps (cpegEdges edges computes caps s d) :=
      mem_weightedOf.mpr ⟨Payload.attrs a, "C-DCL",
        mem_cpegEdges.mpr (Or.inr (Or.inr (Or.inr
          ⟨y, v, a, hm, hx, hvne, rfl, rfl, rfl, rfl⟩))), rfl⟩
    rw [d_uv_dcl] at hmem
    rw [sumBy_cons_of_mem _ _ hm hnd]
    simp only [List.map_cons]
    exact ChainFrom.cons hmem (ih hvne (fun z hz => hts z (List.mem_cons_of_mem v hz)))

lemma weightedOf_pairs {F γ ω : ℚ} {caps : List (String × ℚ)} {E : List EEdge} :
    (weightedOf F γ ω caps E).map (fun e => (e.1, e.2.1)) =
      E.map (fun e => (e.1, e.2.1)) := by
  unfold weightedOf
  rw [List.map_map]
  rfl

lemma cpeg_nodupPairs {nodes : List String} {edges : List OEdge} {computes : List String}
    {caps : List (String × ℚ)} {s d : String} {F γ ω : ℚ}
    (hnd : nodupPairsO edges) (hcnd : computes.Nodup)
    (hend : ∀ e ∈ edges, e.1 ∈ nodes ∧ e.2.1 ∈ nodes)
    (hcn : ∀ c ∈ computes, c ∈ nodes) (hyg : ∀ n ∈ nodes, NoUS n) :
    nodupPairs (weightedOf F γ ω caps (cpegEdges edges computes caps s d)) := by
  unfold nodupPairs
  rw [weightedOf_pairs]
  unfold cpegEdges
  simp only [List.map_append, List.map_map, Function.comp]
  have hmemP1 : ∀ a : String × String,
      a ∈ (edges.filter (fun e => e.2.1 ≠ d)).map (fun e => (e.1, e.2.1)) →
      NoUS a.1 ∧ NoUS a.2 := by
    intro a ha
    rcases List.mem_map.mp ha with ⟨e, he, heq⟩
    have hmem := (List.mem_filter.mp he).1
    rw [← heq]
    exact ⟨hyg _ (hend e hmem).1, hyg _ (hend e hmem).2⟩
  have hmemP2 : ∀ a : String × String,
      a ∈ computes.map (fun node => (node, node ++ "_2")) →
      NoUS a.1 ∧ ∃ c, a.2 = c ++ "_2" := by
    intro a ha
    rcases List.mem_map.mp ha with ⟨c, hc, heq⟩
    rw [← heq]
    exact ⟨hyg c (hcn c hc), c, rfl⟩
  have hmemP3 : ∀ a : String × String,
      a ∈ computes.map (fun node => (node ++ "_2", node ++ "_3")) →
      ∃ c, a.1 = c ++ "_2" ∧ a.2 = c ++ "_3" := by
    intro a ha
    rcases List.mem_map.mp ha with ⟨c, hc, heq⟩
    rw [← heq]
    exact ⟨c, rfl, rfl⟩
  have hmemP4 : ∀ a : String × String,
      a ∈ (edges.filter (fun e => e.1 ≠ s && e.2.1 ≠ s)).map
        (fun e => (e.1 ++ "_3", e.2.1 ++ "_3")) →
      ∃ u v, a.1 = u ++ "_3" ∧ a.2 = v ++ "_3" := by
    intro a ha
    rcases List.mem_map.mp ha with ⟨e, he, heq⟩
    rw [← heq]
    exact ⟨e.1, e.2.1, rfl, rfl⟩
  have hP1 : ((edges.filter (fun e => e.2.1 ≠ d)).map (fun e => (e.1, e.2.1))).Nodup := by
    have hsub : List.Sublist
        ((edges.filter (fun e => e.2.1 ≠ d)).map (fun e => (e.1, e.2.1)))
        (edges.map (fun e => (e.1, e.2.1))) :=
      (List.filter_sublist edges).map _
    exact hnd.sublist hsub
  have hP2 : (computes.map (fun node => (node, node ++ "_2"))).Nodup :=
    hcnd.map (fun a b h => by
      simp only [Prod.mk.injEq] at h
      exact h.1)
  have hP3 : (computes.map (fun node => (node ++ "_2", node ++ "_3"))).Nodup :=
    hcnd.map (fun a b h => by
      simp only [Prod.mk.injEq] at h
      exact str_append_cancel h.1)
  have hP4 : ((edges.filter (fun e => e.1 ≠ s && e.2.1 ≠ s)).map
      (fun e => (e.1 ++ "_3", e.2.1 ++ "_3"))).Nodup := by
    rw [show (fun (e : OEdge) => (e.1 ++ "_3", e.2.1 ++ "_3")) =
        ((fun uv : String × String => (uv.1 ++ "_3", uv.2 ++ "_3")) ∘
          (fun e : OEdge => (e.1, e.2.1))) from rfl, ← List.map_map]
    refine List.Nodup.map (fun a b h => ?_) ?_
    · simp only [Prod.mk.injEq] at h
      exact Prod.ext (str_append_cancel h.1) (str_append_cancel h.2)
    · exact hnd.sublist ((List.filter_sublist edges).map _)
  rw [List.nodup_append, List.nodup_append, List.nodup_append]
  refine ⟨⟨⟨hP1, hP2, ?_⟩, hP3, ?_⟩, hP4, ?_⟩
  · intro a ha1 ha2
    obtain ⟨c, hc⟩ := (hmemP2 a ha2).2
    exact noUS_ne_append (hmemP1 a ha1).2 (by decide) hc
  · intro a ha12 ha3
    obtain ⟨c, hc1, _⟩ := hmemP3 a ha3
    rcases List.mem_append.mp ha12 with ha1 | ha2
    · exact noUS_ne_append (hmemP1 a ha1).1 (by decide) hc1
    · exact noUS_ne_append (hmemP2 a ha2).1 (by decide) hc1
  · intro a ha123 ha4
    obtain ⟨u, v, hu, _⟩ := hmemP4 a ha4
    rcases List.mem_append.mp ha123 with ha12 | ha3
    · rcases List.mem_append.mp ha12 with ha1 | ha2
      · exact noUS_ne_append (hmemP1 a ha1).1 (by decide) hu
      · exact noUS_ne_append (hmemP2 a ha2).1 (by decide) hu
    · obtain ⟨c, hc1, _⟩ := hmemP3 a ha3
      exact @suffix_ne_of_last "_2" "_3" '2' '3' rfl rfl (by decide) c u
        (hc1 ▸ hu ▸ rfl)

/-- Any source → compute → destination pair of original-graph simple walks
whose forward segment avoids the destination and whose return segment avoids
the source lifts into the CPEG expanded graph, so the CPEG search reports a
total no larger than the walks' summed delay. -/
lemma cpeg_le_walk {nodes : List String} {edges : List OEdge} {computes : List String}
    {caps : List (String × ℚ)} {s d : String} {F γ ω : ℚ}
    (hv : ValidNet nodes edges computes caps s d)
    {c : String} (hc : c ∈ computes) {q : ℚ} (hq : alookup c caps = some q)
    {t1 t2 : List String}
    (hch1 : NChain edges s t1) (hl1 : (s :: t1).getLast? = some c)
    (hch2 : NChain edges c t2) (hl2 : (c :: t2).getLast? = some d)
    (hd1 : d ∉ s :: t1) (hs2 : s ∉ c :: t2)
    (hnd1 : (s :: t1).Nodup) (hnd2 : (c :: t2).Nodup) :
    ∃ t' p', cpeg_run nodes edges computes caps s d F γ ω = Except.ok (some t', p') ∧
      t' ≤ sumBy edges (forwardDelay F) (s :: t1) +
        sumBy edges (returnDelay γ F) (c :: t2) + ω * F / q := by
  obtain ⟨hnd, hcnd, hend, hpair, hcn, hcap, hattr, hsm, hdm, hsd, hsc, hdc, hyg⟩ := hv
  have hsome : ∀ c' ∈ computes, (alookup c' caps).isSome := by
    intro c' hc'
    obtain ⟨q', hq', _⟩ := alookup_pos_of_getD (hcap c' hc')
    rw [hq']; rfl
  have hcNoUS : NoUS c := hyg c (hcn c hc)
  have ht2ne : t2 ≠ [] := by
    intro h
    rw [h] at hl2
    simp only [List.getLast?_singleton, Option.some_inj] at hl2
    exact hdc (hl2 ▸ hc)
  -- the lifted walk
  have w1 : SWalk (weightedOf F γ ω caps (cpegEdges edges computes caps s d))
      ([s] ++ t1) (0 + sumBy edges (forwardDelay F) (s :: t1)) := by
    have chU := @chainU edges computes caps s d F γ ω hpair s t1 hch1
      (fun y hy h => hd1 (h ▸ List.mem_cons_of_mem s hy))
    exact swalk_extend (SWalk.single s) rfl chU
  have hw1eq : ([s] ++ t1 : List String) = s :: t1 := by simp
  rw [hw1eq] at w1
  have hwt2 : d_uv F γ ω caps c (c ++ "_2") "UCL-CL"
      (Payload.capdict ((alookup c caps).getD 0)) = ω * F / q := by
    rw [d_uv_uclcl, firstSeg_append hcNoUS (by decide), hq, Option.getD_some]
  have hmem2 : (c, c ++ "_2", ω * F / q) ∈
      weightedOf F γ ω caps (cpegEdges edges computes caps s d) := by
    refine mem_weightedOf.mpr ⟨Payload.capdict ((alookup c caps).getD 0), "UCL-CL",
      mem_cpegEdges.mpr (Or.inr (Or.inl ⟨c, hc, rfl, rfl, rfl, rfl⟩)), hwt2.symm⟩
  have w2 := SWalk.snoc w1 hl1 hmem2
  have hmem3 : (c ++ "_2", c ++ "_3", (0 : ℚ)) ∈
      weightedOf F γ ω caps (cpegEdges edges computes caps s d) := by
    refine mem_weightedOf.mpr ⟨Payload.num 0, "CL-DCL",
      mem_cpegEdges.mpr (Or.inr (Or.inr (Or.inl ⟨c, hc, rfl, rfl, rfl, rfl⟩))), rfl⟩
  have w3 := SWalk.snoc w2 (List.getLast?_concat _) hmem3
  have chD2 : ChainFrom (weightedOf F γ ω caps (cpegEdges edges computes caps s d))
      (c ++ "_3") (t2.map (fun y => y ++ "_3"))
      (sumBy edges (returnDelay γ F) (c :: t2)) := by
    refine chainD hpair hch2 ?_ ?_
    · intro h; exact hs2 (h ▸ List.mem_cons_self c t2)
    · intro y hy h; exact hs2 (h ▸ List.mem_cons_of_mem c hy)
  have w4 := swalk_extend w3 (List.getLast?_concat _) chD2
  -- normalize the walk's node list and cost
  have hcost : 0 + sumBy edges (forwardDelay F) (s :: t1) + ω * F / q + 0 +
      sumBy edges (returnDelay γ F) (c :: t2) =
      sumBy edges (forwardDelay F) (s :: t1) +
        sumBy edges (returnDelay γ F) (c :: t2) + ω * F / q := by ring
  rw [hcost] at w4
  have hhead : ((((s :: t1) ++ [c ++ "_2"]) ++ [c ++ "_3"]) ++
      t2.map (fun y => y ++ "_3")).head? = some s := by
    simp
  have hlast : ((((s :: t1) ++ [c ++ "_2"]) ++ [c ++ "_3"]) ++
      t2.map (fun y => y ++ "_3")).getLast? = some (d ++ "_3") := by
    cases t2 with
    | nil => exact absurd rfl ht2ne
    | cons y2 t2' =>
      rw [List.getLast?_append]
      have hl2' : (y2 :: t2').getLast? = some d := by
        rw [List.getLast?_cons_cons] at hl2
        exact hl2
      have : ((y2 :: t2').map (fun y => y ++ "_3")).getLast? = some (d ++ "_3") := by
        rw [List.getLast?_map, hl2']
        rfl
      rw [this]
      rfl
  -- length bound
  have hsubn1 : ∀ x ∈ s :: t1, x ∈ nodes := by
    intro x hx
    rcases List.mem_cons.mp hx with hxs | hx'
    · rw [hxs]; exact hsm
    · exact nchain_subset hend hch1 x hx'
  have hsubn2 : ∀ x ∈ c :: t2, x ∈ nodes := by
    intro x hx
    rcases List.mem_cons.mp hx with hxc | hx'
    · rw [hxc]; exact hcn c hc
    · exact nchain_subset hend hch2 x hx'
  have hlen1 : (s :: t1).length ≤ nodes.length := nodup_length_le hnd1 hsubn1
  have hlen2 : (c :: t2).length ≤ nodes.length := nodup_length_le hnd2 hsubn2
  have hlen1' : t1.length + 1 ≤ nodes.length := by simpa using hlen1
  have hlen2' : t2.length + 1 ≤ nodes.length := by simpa using hlen2
  have hmle : 1 ≤ computes.length := by
    cases computes with
    | nil => cases hc
    | cons a t => simp
  have hfl : nodes.length ≤ (nodes.filter (fun x => x ≠ s)).length + 1 :=
    filter_ne_length s hnd
  have hR : (cpegNodes nodes computes s).length =
      nodes.length + computes.length + (nodes.filter (fun x => x ≠ s)).length := by
    unfold cpegNodes
    rw [List.length_append, List.length_append, List.length_map, List.length_map]
  -- conclude via the Bellman-Ford lower bound
  have hble : ole (bf (weightedOf F γ ω caps (cpegEdges edges computes caps s d)) s
      (cpegNodes nodes computes s).length (d ++ "_3"))
      (some (sumBy edges (forwardDelay F) (s :: t1) +
        sumBy edges (returnDelay γ F) (c :: t2) + ω * F / q)) := by
    refine bf_le_swalk w4 hhead hlast ?_
    simp only [List.length_append, List.length_map, List.length_cons, List.length_nil]
    omega
  cases hbf : bf (weightedOf F γ ω caps (cpegEdges edges computes caps s d)) s
      (cpegNodes nodes computes s).length (d ++ "_3") with
  | none =>
    rw [hbf] at hble
    exact absurd hble (by simp [ole])
  | some cost =>
    rw [hbf] at hble
    have hcle : cost ≤ sumBy edges (forwardDelay F) (s :: t1) +
        sumBy edges (returnDelay γ F) (c :: t2) + ω * F / q := hble
    have hfst := pbf_fst (weightedOf F γ ω caps (cpegEdges edges computes caps s d)) s
      (cpegNodes nodes computes s).length (d ++ "_3")
    rw [hbf] at hfst
    cases hpbf : pbf (weightedOf F γ ω caps (cpegEdges edges computes caps s d)) s
        (cpegNodes nodes computes s).length (d ++ "_3") with
    | none => rw [hpbf] at hfst; cases hfst
    | some x =>
      rcases x with ⟨cost0, pth⟩
      rw [hpbf] at hfst
      simp only [Option.map_some', Option.some_inj] at hfst
      have hsp : shortest_path (weightedOf F γ ω caps (cpegEdges edges computes caps s d))
          (cpegNodes nodes computes s).length s (d ++ "_3") = some (cost0, pth) := hpbf
      have hpw : pathWeight (weightedOf F γ ω caps (cpegEdges edges computes caps s d))
          pth = some cost0 := by
        obtain ⟨hw, _, _, _⟩ := pbf_inv hpbf
        exact swalk_pathWeight hw (cpeg_nodupPairs hpair hcnd hend hcn hyg)
      refine ⟨cost0, pth, ?_, by rw [hfst]; exact hcle⟩
      unfold cpeg_run
      rw [cpeg_expand_ok hsome, except_bind_ok]
      simp only [hsp, except_pure, hpw]

/-! ## Claim C1: CPEG versus the greedy strategies -/

/-- Counterexample to C1: on the valid network `n1` (one compute node, so at
most 3) CCN and MPCN both return total delay 7 while the CPEG script returns
104 — the CPEG result is NOT less than or equal to the greedy ones, because
the U-layer of the expanded graph drops every original edge into the
destination, cutting off the short route through `d`. -/
theorem C1_counterexample :
    ValidNet n1nodes n1edges ["c"] n1caps "s" "d" ∧
    (["c"] : List String).length ≤ 3 ∧
    find_closest_compute_node n1nodes n1edges ["c"] n1caps "s" "d" 1 1 1 =
      Except.ok (some "c", some 7, ["s", "d", "c", "d"]) ∧
    find_max_capacity_compute_node n1nodes n1edges n1caps "s" "d" 1 1 1 =
      Except.ok (some "c", some 7, ["s", "d", "c", "d"]) ∧
    cpeg_run n1nodes n1edges ["c"] n1caps "s" "d" 1 1 1 =
      Except.ok (some 104, ["s", "c", "c_2", "c_3", "d_3"]) ∧
    ¬ ((104 : ℚ) ≤ 7) := by
  refine ⟨?_, ?_, ?_, ?_, ?_, ?_⟩ <;> with_unfolding_all decide

/-- C1 as amended: CPEG is only an upper-bounded competitor on greedy routes
that survive the expansion.  For every valid Network and FlowRequest, whenever
CCN (resp. MPCN) succeeds and its two greedy segments avoid the destination
(forward) and the source (return) and are duplicate-free, the CPEG script also
succeeds and its total delay is at most the greedy total.  (Without the
avoidance conditions the claim fails: the expansion drops edges into the
destination from the U layer and edges touching the source from the D layer,
see the counterexample.) -/
theorem C1_amended (nodes : List String) (edges : List OEdge) (computes : List String)
    (caps : List (String × ℚ)) (s d : String) (F ω γ : ℚ)
    (hv : ValidNet nodes edges computes caps s d) :
    (∀ c key p1 p2 q,
      ccn_select nodes edges computes s d = some (c, key, p1, p2) →
      alookup c caps = some q →
      d ∉ p1 → s ∉ p2 → p1.Nodup → p2.Nodup →
      ∀ t pth,
        find_closest_compute_node nodes edges computes caps s d F ω γ =
          Except.ok (some c, some t, pth) →
        ∃ t' p', cpeg_run nodes edges computes caps s d F γ ω =
          Except.ok (some t', p') ∧ t' ≤ t) ∧
    (∀ m p1 p2,
      mpcn_select nodes edges caps s d F γ = some (m, some (p1, p2)) →
      m.1 ∈ computes → alookup m.1 caps = some m.2 →
      d ∉ p1 → s ∉ p2 → p1.Nodup → p2.Nodup →
      ∀ t pth,
        find_max_capacity_compute_node nodes edges caps s d F ω γ =
          Except.ok (some m.1, some t, pth) →
        ∃ t' p', cpeg_run nodes edges computes caps s d F γ ω =
          Except.ok (some t', p') ∧ t' ≤ t) := by
  constructor
  · intro c key p1 p2 q hsel hq hd1 hs2 hnd1 hnd2 t pth hrun
    obtain ⟨hcm, ⟨k1, hsp1⟩, ⟨k2, hsp2⟩, _, _⟩ :=
      ccn_select_facts nodes edges computes s d c key p1 p2 hsel
    obtain ⟨t1, rfl, hch1, hl1⟩ := sp_path_facts hsp1
    obtain ⟨t2, rfl, hch2, hl2⟩ := sp_path_facts hsp2
    obtain ⟨t', p', hcp, hle⟩ :=
      cpeg_le_walk (F := F) (γ := γ) (ω := ω) hv hcm hq hch1 hl1 hch2 hl2 hd1 hs2 hnd1 hnd2
    have heq := ccn_run_eq (F := F) (ω := ω) (γ := γ) hsel hq
    rw [hrun] at heq
    simp only [Except.ok.injEq, Prod.mk.injEq, Option.some_inj] at heq
    exact ⟨t', p', hcp, by rw [heq.2.1]; exact hle⟩
  · intro m p1 p2 hms hm1 hq hd1 hs2 hnd1 hnd2 t pth hrun
    have hsel2 := hms
    unfold mpcn_select at hsel2
    cases hmax : maxCapEntry caps with
    | none => rw [hmax] at hsel2; cases hsel2
    | some m' =>
      simp only [hmax] at hsel2
      cases hsp1 : shortest_path
          (edges.map (fun e => (e.1, e.2.1, mpcnFwdW F e.2.2)))
          nodes.length s m'.1 with
      | none =>
        simp only [hsp1] at hsel2
        simp only [Option.some_inj, Prod.mk.injEq] at hsel2
        cases hsel2.2
      | some x1 =>
        cases hsp2 : shortest_path
            (edges.map (fun e => (e.1, e.2.1, mpcnRetW γ F e.2.2)))
            nodes.length m'.1 d with
        | none =>
          simp only [hsp1, hsp2] at hsel2
          simp only [Option.some_inj, Prod.mk.injEq] at hsel2
          cases hsel2.2
        | some x2 =>
          rcases x1 with ⟨k1, q1⟩
          rcases x2 with ⟨k2, q2⟩
          simp only [hsp1, hsp2] at hsel2
          simp only [Option.some_inj, Prod.mk.injEq] at hsel2
          obtain ⟨hmm, hqq⟩ := hsel2
          obtain ⟨hq1, hq2⟩ := hqq
          rw [← hmm] at hm1 hq hrun
          rw [← hq1] at hd1 hnd1
          rw [← hq2] at hs2 hnd2
          obtain ⟨s1, rfl, hch1, hl1⟩ := sp_path_facts hsp1
          obtain ⟨s2, rfl, hch2, hl2⟩ := sp_path_facts hsp2
          obtain ⟨t', p', hcp, hle⟩ :=
            cpeg_le_walk (F := F) (γ := γ) (ω := ω) hv hm1 hq hch1 hl1 hch2 hl2 hd1 hs2 hnd1 hnd2
          have hms' : mpcn_select nodes edges caps s d F γ =
              some (m', some (s :: s1, m'.1 :: s2)) := by
            rw [hms, ← hmm, ← hq1, ← hq2]
          have heq := mpcn_run_eq (ω := ω) hms'
          rw [hrun] at heq
          simp only [Except.ok.injEq, Prod.mk.injEq, Option.some_inj] at heq
          exact ⟨t', p', hcp, by rw [heq.2.1]; exact hle⟩

/-- Witness for C1's amended statement on the witness chain network: CCN
returns total 5 there and CPEG also achieves at most 5. -/
theorem C1_amended_witness :
    ∃ t' p', cpeg_run nWnodes nWedges ["c"] nWcaps "s" "d" 1 1 1 =
      Except.ok (some t', p') ∧ t' ≤ (5 : ℚ) :=
  (C1_amended nWnodes nWedges ["c"] nWcaps "s" "d" 1 1 1
    (by with_unfolding_all decide)).1 "c" 1 ["s", "c"] ["c", "d"] 1
    (by with_unfolding_all decide) (by with_unfolding_all decide)
    (by decide) (by decide) (by decide) (by decide)
    5 ["s", "c", "d"] (by with_unfolding_all decide)

/-- Witness for C7's amended statement on the witness chain network. -/
theorem C7_amended_witness :
    ∃ tl, (["s", "c", "d"] : List String) = "s" :: tl ∧ NChain nWedges "s" tl ∧
      (["s", "c", "d"] : List String).getLast? = some "d" := by
  exact (C7_amended nWnodes nWedges ["c"] nWcaps "s" "d" 1 1 1).1 "c" (some 5)
    ["s", "c", "d"] (by with_unfolding_all decide)

/-- Witness for C4's amended statement on the witness chain network. -/
theorem C4_amended_witness :
    find_closest_compute_node nWnodes nWedges ["c"] nWcaps "s" "d" 1 1 1 =
      Except.ok (some "c",
        some (sumBy nWedges (forwardDelay 1) ["s", "c"] +
          sumBy nWedges (returnDelay 1 1) ["c", "d"] + 1 * 1 / 1),
        (["s", "c"] : List String).dropLast ++ ["c", "d"]) := by
  have h := C4_amended nWnodes nWedges ["c"] nWcaps "s" "d" 1 1 1 "c" 1 ["s", "c"]
    ["c", "d"] (by with_unfolding_all decide)
  exact h.2.2.2.2.2 1 (by with_unfolding_all decide)

/-! ## Claim C6: counterexample -/

/-- Counterexample to C6: on a network with zero compute nodes MPCN raises
`ValueError` (from `max()` of the empty capacity dict) and the CPEG script
raises the uncaught `NetworkXNoPath`; neither returns the no-path result. -/
theorem C6_counterexample :
    find_max_capacity_compute_node n2nodes n2edges [] "s" "d" 1 1 1 =
      Except.error PyErr.valueError ∧
    cpeg_run n2nodes n2edges [] [] "s" "d" 1 1 1 = Except.error PyErr.noPath ∧
    find_max_capacity_compute_node n2nodes n2edges [] "s" "d" 1 1 1 ≠
      Except.ok (none, none, []) := by
  refine ⟨?_, ?_, ?_⟩ <;> with_unfolding_all decide

/-! ## Claim C8: CNE versus CPEG -/

lemma oadd_zero (x : Option ℚ) : oadd x 0 = x := by
  cases x <;> simp [oadd]

lemma ole_none_left {y : Option ℚ} (h : ole none y) : y = none := by
  cases y with
  | none => rfl
  | some b => simp [ole] at h

lemma str_append_assoc (a b c : String) : a ++ b ++ c = a ++ (b ++ c) :=
  str_ext (by simp only [String.data_append, List.append_assoc])

lemma noUS_ne_tagged {x y n : String} (hx : NoUS x) : x ≠ y ++ "_" ++ n := by
  rw [str_append_assoc]
  refine noUS_ne_append hx ?_
  rw [String.data_append]
  exact List.mem_append.mpr (Or.inl (by decide))

lemma mem_enum_exists {l : List String} {x : String} (h : x ∈ l) :
    ∃ j, j < l.length ∧ (j, x) ∈ l.enum := by
  obtain ⟨j, hj⟩ := List.mem_iff_get?.mp h
  have hlt : j < l.length := by
    by_contra hge
    rw [List.get?_eq_none.mpr (Nat.le_of_not_lt hge)] at hj
    cases hj
  exact ⟨j, hlt, List.mk_mem_enum_iff_get?.mpr hj⟩

lemma cne_weight_orig (F γ ω : ℚ) (u v : String) (a : EdgeAttrs) :
    cne_weight F γ ω (u, v, Payload.attrs a, "original") = forwardDelay F a := by
  simp [cne_weight]

lemma cne_weight_copied (F γ ω : ℚ) (u v : String) (a : EdgeAttrs) :
    cne_weight F γ ω (u, v, Payload.attrs a, "copied") = returnDelay γ F a := by
  have h1 : ¬ (("copied" : String) = "original") := by decide
  simp [cne_weight, h1]

lemma cne_weight_compute (F γ ω : ℚ) (u v : String) (q : ℚ) :
    cne_weight F γ ω (u, v, Payload.capdict q, "compute") = ω * F / q := by
  have h1 : ¬ (("compute" : String) = "original") := by decide
  have h2 : ¬ (("compute" : String) = "copied") := by decide
  simp [cne_weight, h1, h2]

lemma cne_weight_aggregate (F γ ω : ℚ) (u v : String) (q : ℚ) :
    cne_weight F γ ω (u, v, Payload.num q, "aggregate") = 0 := by
  have h1 : ¬ (("aggregate" : String) = "original") := by decide
  have h2 : ¬ (("aggregate" : String) = "copied") := by decide
  have h3 : ¬ (("aggregate" : String) = "compute") := by decide
  simp [cne_weight, h1, h2, h3]

lemma sum_map_length_const {α : Type} (m : Nat) (g : Nat → List α) (c : Nat)
    (h : ∀ i, (g i).length = c) :
    ((List.range m).map (fun i => (g i).length)).sum = m * c := by
  induction m with
  | zero => simp
  | succ m ih =>
    rw [List.range_succ, List.map_append, List.sum_append]
    simp [h, ih, Nat.succ_mul]

lemma cne_rounds_ge {nodes computes : List String} {s d : String}
    (hdm : d ∈ nodes) (hsd : s ≠ d) (hcomp : computes ≠ []) :
    (cpegNodes nodes computes s).length ≤ (cneNodes nodes computes s d).length := by
  have hR : (cpegNodes nodes computes s).length =
      nodes.length + computes.length + (nodes.filter (fun x => x ≠ s)).length := by
    unfold cpegNodes
    rw [List.length_append, List.length_append, List.length_map, List.length_map]
  have hfl : ((List.range computes.length).flatMap (fun i =>
      (nodes.filter (fun node => node ≠ s)).map
        (fun node => node ++ "_" ++ toString (i + 1)))).length =
      computes.length * (nodes.filter (fun x => x ≠ s)).length := by
    rw [List.length_flatMap]
    exact sum_map_length_const computes.length _ _ (fun i => List.length_map _ _)
  have hR' : (cneNodes nodes computes s d).length =
      nodes.length + computes.length * (nodes.filter (fun x => x ≠ s)).length + 1 := by
    unfold cneNodes
    rw [List.length_append, List.length_append, hfl]
    rfl
  have hn1 : 1 ≤ (nodes.filter (fun x => x ≠ s)).length := by
    have hdmem : d ∈ nodes.filter (fun x => x ≠ s) :=
      List.mem_filter.mpr ⟨hdm, by simp only [ne_eq, decide_eq_true_eq]; exact Ne.symm hsd⟩
    exact List.length_pos.mpr (List.ne_nil_of_mem hdmem)
  have hm1 : 1 ≤ computes.length := List.length_pos.mpr hcomp
  obtain ⟨m0, hm0⟩ : ∃ m0, computes.length = m0 + 1 := ⟨computes.length - 1, by omega⟩
  obtain ⟨k0, hk0⟩ : ∃ k0, (nodes.filter (fun x => x ≠ s)).length = k0 + 1 :=
    ⟨(nodes.filter (fun x => x ≠ s)).length - 1, by omega⟩
  rw [hR, hR', hm0, hk0]
  have hexp : (m0 + 1) * (k0 + 1) = m0 * k0 + m0 + k0 + 1 := by ring
  rw [hexp]
  omega

/-- Replica simulation, original layer: on original node names the CNE
replica expansion is never farther from the source than the CPEG expansion
(CNE keeps all original edges; CPEG drops those into the destination). -/
lemma cne_le_cpeg_orig {nodes : List String} {edges : List OEdge}
    {computes : List String} {caps : List (String × ℚ)} {s d : String} {F γ ω : ℚ}
    (hend : ∀ e ∈ edges, e.1 ∈ nodes ∧ e.2.1 ∈ nodes)
    (hyg : ∀ n ∈ nodes, NoUS n) :
    ∀ (k : Nat) (x : String), NoUS x →
      ole (bf (weightedOfCNE F γ ω (cneEdges edges computes caps s d)) s k x)
        (bf (weightedOf F γ ω caps (cpegEdges edges computes caps s d)) s k x) := by
  intro k
  induction k with
  | zero => intro x _; exact ole_refl _
  | succ k ih =>
    intro x hx
    refine ole_relax _ _ _ ?_ ?_
    · exact ole_trans (bf_succ_le _ _ _ _) (ih x hx)
    · intro u w hmem
      rcases mem_weightedOf.mp hmem with ⟨pe, tag, hm, hw⟩
      rcases mem_cpegEdges.mp hm with
        ⟨at_, hme, hbd, hpe, htag⟩ | ⟨c0, hc0, ha, hb, hpe, htag⟩ |
        ⟨c0, hc0, ha, hb, hpe, htag⟩ | ⟨u0, v0, at_, hme, hu0, hv0, ha, hb, hpe, htag⟩
      · subst hpe htag
        rw [d_uv_ucl] at hw
        have hNu : NoUS u := hyg u (hend _ hme).1
        have hcne : (u, x, forwardDelay F at_) ∈
            weightedOfCNE F γ ω (cneEdges edges computes caps s d) :=
          mem_weightedOfCNE.mpr ⟨Payload.attrs at_, "original", cne_mem_orig hme,
            (cne_weight_orig F γ ω u x at_).symm⟩
        rw [hw]
        exact ole_trans (relax_le_edge _ hcne) (oadd_mono _ (ih u hNu))
      · exact absurd hb (noUS_ne_append hx (by decide))
      · exact absurd hb (noUS_ne_append hx (by decide))
      · exact absurd hb (noUS_ne_append hx (by decide))

/-- Replica simulation, compute-enter step: the CNE replica entry node of a
compute node is never farther than CPEG's CL copy of that node. -/
lemma cne_le_cpeg_compute {nodes : List String} {edges : List OEdge}
    {computes : List String} {caps : List (String × ℚ)} {s d : String} {F γ ω : ℚ}
    (hend : ∀ e ∈ edges, e.1 ∈ nodes ∧ e.2.1 ∈ nodes)
    (hyg : ∀ n ∈ nodes, NoUS n) (hcn : ∀ c ∈ computes, c ∈ nodes)
    (hcap : ∀ c ∈ computes, 0 < (alookup c caps).getD 0) (hs : s ∈ nodes) :
    ∀ (k j : Nat) (c : String), (j, c) ∈ computes.enum →
      ole (bf (weightedOfCNE F γ ω (cneEdges edges computes caps s d)) s k
          (c ++ "_" ++ toString (j + 1)))
        (bf (weightedOf F γ ω caps (cpegEdges edges computes caps s d)) s k
          (c ++ "_2")) := by
  intro k
  induction k with
  | zero =>
    intro j c hjc
    have hNs : NoUS s := hyg s hs
    show ole (bfInit s (c ++ "_" ++ toString (j + 1))) (bfInit s (c ++ "_2"))
    unfold bfInit
    rw [if_neg (Ne.symm (noUS_ne_tagged hNs)),
      if_neg (Ne.symm (noUS_ne_append hNs (by decide)))]
    exact ole_refl _
  | succ k ih =>
    intro j c hjc
    have hcm : c ∈ computes := snd_mem_of_mem_enum hjc
    have hNc : NoUS c := hyg c (hcn c hcm)
    refine ole_relax _ _ _ ?_ ?_
    · exact ole_trans (bf_succ_le _ _ _ _) (ih j c hjc)
    · intro u w hmem
      rcases mem_weightedOf.mp hmem with ⟨pe, tag, hm, hw⟩
      rcases mem_cpegEdges.mp hm with
        ⟨at_, hme, hbd, hpe, htag⟩ | ⟨c0, hc0, ha, hb, hpe, htag⟩ |
        ⟨c0, hc0, ha, hb, hpe, htag⟩ | ⟨u0, v0, at_, hme, hu0, hv0, ha, hb, hpe, htag⟩
      · have hN2 : NoUS (c ++ "_2") := hyg _ (hend _ hme).2
        exact absurd rfl (noUS_ne_append hN2 (by decide))
      · subst hpe htag
        rw [d_uv_uclcl, firstSeg_append hNc (by decide)] at hw
        obtain ⟨q, hq, _⟩ := alookup_pos_of_getD (hcap c hcm)
        rw [hq, Option.getD_some] at hw
        have hcc : c = c0 := str_append_cancel hb
        have hcne : (c, c ++ "_" ++ toString (j + 1), ω * F / q) ∈
            weightedOfCNE F γ ω (cneEdges edges computes caps s d) :=
          mem_weightedOfCNE.mpr ⟨Payload.capdict ((alookup c caps).getD 0), "compute",
            cne_mem_compute hjc, by rw [cne_weight_compute, hq, Option.getD_some]⟩
        rw [ha, ← hcc, hw]
        exact ole_trans (relax_le_edge _ hcne)
          (oadd_mono _ (cne_le_cpeg_orig hend hyg k c hNc))
      · exact absurd hb (@suffix_ne_of_last "_2" "_3" '2' '3' rfl rfl (by decide) c c0)
      · exact absurd hb (@suffix_ne_of_last "_2" "_3" '2' '3' rfl rfl (by decide) c v0)

/-- Replica simulation, downstream layer: the cheapest CNE replica copy of an
original node is never farther than CPEG's DCL copy one round later (the CPEG
route spends an extra zero-weight CL-DCL hop that CNE does not have). -/
lemma cne_le_cpeg_replica {nodes : List String} {edges : List OEdge}
    {computes : List String} {caps : List (String × ℚ)} {s d : String} {F γ ω : ℚ}
    (hend : ∀ e ∈ edges, e.1 ∈ nodes ∧ e.2.1 ∈ nodes)
    (hyg : ∀ n ∈ nodes, NoUS n) (hcn : ∀ c ∈ computes, c ∈ nodes)
    (hcap : ∀ c ∈ computes, 0 < (alookup c caps).getD 0) (hs : s ∈ nodes) :
    ∀ (k : Nat) (x : String), x ∈ nodes →
      ole ((List.range computes.length).foldr
          (fun j acc => omin (bf (weightedOfCNE F γ ω
            (cneEdges edges computes caps s d)) s k
            (x ++ "_" ++ toString (j + 1))) acc) none)
        (bf (weightedOf F γ ω caps (cpegEdges edges computes caps s d)) s (k + 1)
          (x ++ "_3")) := by
  intro k
  induction k with
  | zero =>
    intro x hxm
    have hNs : NoUS s := hyg s hs
    refine ole_relax _ _ _ ?_ ?_
    · have h0 : bf (weightedOf F γ ω caps (cpegEdges edges computes caps s d)) s 0
          (x ++ "_3") = none := if_neg (Ne.symm (noUS_ne_append hNs (by decide)))
      rw [h0]
      exact ole_none _
    · intro u w hmem
      rcases mem_weightedOf.mp hmem with ⟨pe, tag, hm, hw⟩
      rcases mem_cpegEdges.mp hm with
        ⟨at_, hme, hbd, hpe, htag⟩ | ⟨c0, hc0, ha, hb, hpe, htag⟩ |
        ⟨c0, hc0, ha, hb, hpe, htag⟩ | ⟨u0, v0, at_, hme, hu0, hv0, ha, hb, hpe, htag⟩
      · have hN3 : NoUS (x ++ "_3") := hyg _ (hend _ hme).2
        exact absurd rfl (noUS_ne_append hN3 (by decide))
      · exact absurd hb (@suffix_ne_of_last "_3" "_2" '3' '2' rfl rfl (by decide) x c0)
      · have h0 : bf (weightedOf F γ ω caps (cpegEdges edges computes caps s d)) s 0
            u = none := by
          rw [ha]
          exact if_neg (Ne.symm (noUS_ne_append hNs (by decide)))
        rw [h0]
        exact ole_none _
      · have h0 : bf (weightedOf F γ ω caps (cpegEdges edges computes caps s d)) s 0
            u = none := by
          rw [ha]
          exact if_neg (Ne.symm (noUS_ne_append hNs (by decide)))
        rw [h0]
        exact ole_none _
  | succ k ih =>
    intro x hxm
    refine ole_relax _ _ _ ?_ ?_
    · refine ole_trans (foldr_omin_mono ?_) (ih x hxm)
      intro j hj
      exact bf_succ_le _ _ _ _
    · intro u w hmem
      rcases mem_weightedOf.mp hmem with ⟨pe, tag, hm, hw⟩
      rcases mem_cpegEdges.mp hm with
        ⟨at_, hme, hbd, hpe, htag⟩ | ⟨c0, hc0, ha, hb, hpe, htag⟩ |
        ⟨c0, hc0, ha, hb, hpe, htag⟩ | ⟨u0, v0, at_, hme, hu0, hv0, ha, hb, hpe, htag⟩
      · have hN3 : NoUS (x ++ "_3") := hyg _ (hend _ hme).2
        exact absurd rfl (noUS_ne_append hN3 (by decide))
      · exact absurd hb (@suffix_ne_of_last "_3" "_2" '3' '2' rfl rfl (by decide) x c0)
      · subst hpe htag
        rw [d_uv_cldcl] at hw
        have hxc : x = c0 := str_append_cancel hb
        rw [← hxc] at hc0 ha
        obtain ⟨j, hjlen, hjmem⟩ := mem_enum_exists hc0
        have h1 := foldr_omin_le_mem (fun j => bf (weightedOfCNE F γ ω
            (cneEdges edges computes caps s d)) s (k + 1)
            (x ++ "_" ++ toString (j + 1))) (List.mem_range.mpr hjlen)
        have h2 := cne_le_cpeg_compute (d := d) (F := F) (γ := γ) (ω := ω) hend hyg hcn hcap hs (k + 1) j x hjmem
        rw [ha, hw, oadd_zero]
        exact ole_trans h1 h2
      · subst hpe htag
        rw [d_uv_dcl] at hw
        have hxv : x = v0 := str_append_cancel hb
        rw [← hxv] at hme hv0
        have hu0m : u0 ∈ nodes := (hend _ hme).1
        rcases foldr_omin_cases (fun j => bf (weightedOfCNE F γ ω
            (cneEdges edges computes caps s d)) s k
            (u0 ++ "_" ++ toString (j + 1))) (List.range computes.length) with
          hnone | ⟨j0, hj0, heq⟩
        · have hC := ih u0 hu0m
          rw [hnone] at hC
          rw [ha, hw, ole_none_left hC]
          exact ole_none _
        · have hjlen := List.mem_range.mp hj0
          have hedge : (u0 ++ "_" ++ toString (j0 + 1), x ++ "_" ++ toString (j0 + 1),
              returnDelay γ F at_) ∈
              weightedOfCNE F γ ω (cneEdges edges computes caps s d) :=
            mem_weightedOfCNE.mpr ⟨Payload.attrs at_, "copied",
              cne_mem_copied hjlen hme hu0 hv0,
              (cne_weight_copied F γ ω _ _ at_).symm⟩
          have h1 := foldr_omin_le_mem (fun j => bf (weightedOfCNE F γ ω
              (cneEdges edges computes caps s d)) s (k + 1)
              (x ++ "_" ++ toString (j + 1))) hj0
          have h2 : ole (bf (weightedOfCNE F γ ω (cneEdges edges computes caps s d)) s
              (k + 1) (x ++ "_" ++ toString (j0 + 1)))
              (oadd (bf (weightedOfCNE F γ ω (cneEdges edges computes caps s d)) s k
                (u0 ++ "_" ++ toString (j0 + 1))) (returnDelay γ F at_)) :=
            relax_le_edge _ hedge
          have hC := ih u0 hu0m
          rw [heq] at hC
          rw [ha, hw]
          exact ole_trans h1 (ole_trans h2 (oadd_mono _ hC))

/-- Replica simulation, super-destination: CNE's super destination is never
farther from the source than CPEG's DCL destination copy at equal rounds. -/
lemma cne_le_cpeg_super {nodes : List String} {edges : List OEdge}
    {computes : List String} {caps : List (String × ℚ)} {s d : String} {F γ ω : ℚ}
    (hend : ∀ e ∈ edges, e.1 ∈ nodes ∧ e.2.1 ∈ nodes)
    (hyg : ∀ n ∈ nodes, NoUS n) (hcn : ∀ c ∈ computes, c ∈ nodes)
    (hcap : ∀ c ∈ computes, 0 < (alookup c caps).getD 0) (hs : s ∈ nodes)
    (hdm : d ∈ nodes) :
    ∀ k : Nat,
      ole (bf (weightedOfCNE F γ ω (cneEdges edges computes caps s d)) s (k + 1)
          (d ++ "_Super_Dest"))
        (bf (weightedOf F γ ω caps (cpegEdges edges computes caps s d)) s (k + 1)
          (d ++ "_3")) := by
  intro k
  have hC := cne_le_cpeg_replica (d := d) (F := F) (γ := γ) (ω := ω) hend hyg hcn hcap hs k d hdm
  rcases foldr_omin_cases (fun j => bf (weightedOfCNE F γ ω
      (cneEdges edges computes caps s d)) s k
      (d ++ "_" ++ toString (j + 1))) (List.range computes.length) with
    hnone | ⟨j0, hj0, heq⟩
  · rw [hnone] at hC
    rw [ole_none_left hC]
    exact ole_none _
  · rw [heq] at hC
    have hedge : (d ++ "_" ++ toString (j0 + 1), d ++ "_Super_Dest", (0 : ℚ)) ∈
        weightedOfCNE F γ ω (cneEdges edges computes caps s d) :=
      mem_weightedOfCNE.mpr ⟨Payload.num 0, "aggregate",
        cne_mem_aggregate (List.mem_range.mp hj0),
        (cne_weight_aggregate F γ ω _ _ 0).symm⟩
    have h2 := relax_le_edge (bf (weightedOfCNE F γ ω
      (cneEdges edges computes caps s d)) s k) hedge
    rw [oadd_zero] at h2
    exact ole_trans h2 hC

/-- Counterexample to C8: on the valid one-compute network `n1` the
spec-modelled CNE replica search returns total delay 7 while the CPEG script
returns 104 (the CPEG U layer cuts the route through the destination), so the
two totals are NOT equal. -/
theorem C8_counterexample :
    ValidNet n1nodes n1edges ["c"] n1caps "s" "d" ∧
    cne_run n1nodes n1edges ["c"] n1caps "s" "d" 1 1 1 =
      Except.ok (some "c", some 7, ["s", "d", "c", "d"]) ∧
    cpeg_run n1nodes n1edges ["c"] n1caps "s" "d" 1 1 1 =
      Except.ok (some 104, ["s", "c", "c_2", "c_3", "d_3"]) ∧
    (7 : ℚ) ≠ 104 := by
  refine ⟨?_, ?_, ?_, ?_⟩ <;> with_unfolding_all decide

/-- C8 as amended: the two expansions are NOT equivalent; the CNE replica
search is a lower bound of the CPEG search.  For every valid Network and
FlowRequest, whenever the CPEG script returns a total delay, the spec-modelled
CNE driver also returns one that is less than or equal to it (every CPEG route
survives in some replica, while CNE additionally keeps the original edges into
the destination that CPEG's U layer deletes). -/
theorem C8_amended (nodes : List String) (edges : List OEdge) (computes : List String)
    (caps : List (String × ℚ)) (s d : String) (F γ ω : ℚ)
    (hv : ValidNet nodes edges computes caps s d) :
    ∀ t p, cpeg_run nodes edges computes caps s d F γ ω = Except.ok (some t, p) →
      ∃ node tc pc, cne_run nodes edges computes caps s d F γ ω =
        Except.ok (node, some tc, pc) ∧ tc ≤ t := by
  obtain ⟨hnd, hcnd, hend, hpair, hcn, hcap, hattr, hsm, hdm, hsd, hsc, hdc, hyg⟩ := hv
  have hsome : ∀ c ∈ computes, (alookup c caps).isSome := by
    intro c hc
    obtain ⟨q, hq, _⟩ := alookup_pos_of_getD (hcap c hc)
    rw [hq]; rfl
  intro t p hrun
  unfold cpeg_run at hrun
  rw [cpeg_expand_ok hsome, except_bind_ok] at hrun
  cases hsp : shortest_path (weightedOf F γ ω caps (cpegEdges edges computes caps s d))
      (cpegNodes nodes computes s).length s (d ++ "_3") with
  | none =>
    simp only [hsp] at hrun
    cases hrun
  | some x =>
    rcases x with ⟨c0, p0⟩
    simp only [hsp, except_pure] at hrun
    simp only [Except.ok.injEq, Prod.mk.injEq] at hrun
    obtain ⟨hw0, hp0⟩ := hrun
    have hfst := pbf_fst (weightedOf F γ ω caps (cpegEdges edges computes caps s d)) s
      (cpegNodes nodes computes s).length (d ++ "_3")
    unfold shortest_path at hsp
    rw [hsp] at hfst
    simp only [Option.map_some'] at hfst
    have hpw : pathWeight (weightedOf F γ ω caps (cpegEdges edges computes caps s d))
        p0 = some c0 := by
      obtain ⟨hwE, _, _, _⟩ := pbf_inv hsp
      exact swalk_pathWeight hwE (cpeg_nodupPairs hpair hcnd hend hcn hyg)
    have htc0 : c0 = t := by
      rw [hpw] at hw0
      exact Option.some_inj.mp hw0
    by_cases hcomp : computes = []
    · rw [hcomp] at hfst
      rw [@cpeg_empty_bf_none nodes edges caps s d F γ ω hyg hend hsm _] at hfst
      cases hfst
    · have hge := cne_rounds_ge hdm hsd hcomp
      have hR1 : 1 ≤ (cpegNodes nodes computes s).length := by
        have hne : nodes ≠ [] := List.ne_nil_of_mem hsm
        have h1 : 1 ≤ nodes.length := List.length_pos.mpr hne
        unfold cpegNodes
        rw [List.length_append, List.length_append]
        omega
      obtain ⟨R0, hR0⟩ : ∃ R0, (cpegNodes nodes computes s).length = R0 + 1 :=
        ⟨(cpegNodes nodes computes s).length - 1, by omega⟩
      have hE := cne_le_cpeg_super (F := F) (γ := γ) (ω := ω) hend hyg hcn hcap hsm hdm R0
      rw [← hR0] at hE
      have hanti := bf_anti (weightedOfCNE F γ ω (cneEdges edges computes caps s d)) s
        hge (d ++ "_Super_Dest")
      have hfin := ole_trans hanti hE
      rw [← hfst] at hfin
      cases hbfn : bf (weightedOfCNE F γ ω (cneEdges edges computes caps s d)) s
          (cneNodes nodes computes s d).length (d ++ "_Super_Dest") with
      | none =>
        rw [hbfn] at hfin
        simp [ole] at hfin
      | some tc =>
        rw [hbfn] at hfin
        have htc : tc ≤ c0 := hfin
        have hfstN := pbf_fst (weightedOfCNE F γ ω (cneEdges edges computes caps s d)) s
          (cneNodes nodes computes s d).length (d ++ "_Super_Dest")
        rw [hbfn] at hfstN
        cases hpbfN : pbf (weightedOfCNE F γ ω (cneEdges edges computes caps s d)) s
            (cneNodes nodes computes s d).length (d ++ "_Super_Dest") with
        | none =>
          rw [hpbfN] at hfstN
          cases hfstN
        | some y =>
          rcases y with ⟨tc0, pn⟩
          rw [hpbfN] at hfstN
          simp only [Option.map_some', Option.some_inj] at hfstN
          have hspN : shortest_path (weightedOfCNE F γ ω
              (cneEdges edges computes caps s d)) (cneNodes nodes computes s d).length s
              (d ++ "_Super_Dest") = some (tc, pn) := by
            unfold shortest_path
            rw [hpbfN, hfstN]
          refine ⟨(pn.find? (fun x => decide ('_' ∈ x.data))).map firstSeg, tc,
            collapseDup ((pn.filter (fun x => x ≠ d ++ "_Super_Dest")).map firstSeg),
            ?_, by rw [← htc0]; exact htc⟩
          unfold cne_run
          rw [cne_expand_ok hsome, except_bind_ok]
          simp only [hspN, except_pure]

/-- Witness for C8's amended statement on the witness chain network: CPEG
returns total 5 there and the CNE search achieves at most 5. -/
theorem C8_amended_witness :
    ∃ node tc pc, cne_run nWnodes nWedges ["c"] nWcaps "s" "d" 1 1 1 =
      Except.ok (node, some tc, pc) ∧ tc ≤ (5 : ℚ) :=
  C8_amended nWnodes nWedges ["c"] nWcaps "s" "d" 1 1 1
    (by with_unfolding_all decide) 5 ["s", "c", "c_2", "c_3", "d_3"]
    (by with_unfolding_all decide)

end TVT
